import Mathlib

/-!
Verification of the graph data structures of `algorithms/graph.py`
(directed graph `Digraph`, undirected graph `Graph`) and of the
breadth-first-search scenario of `chap14/bfs.py`.

Python objects are embedded shallowly:
* a `Vertex` is identified by a natural number (Python vertex equality is
  object identity, `__eq__` is `is`);
* an `Edge` is a record of head id, tail id, tag and distance;
* a Python `dict` (insertion ordered) is an association list
  `List (Nat × α)`: assignment to an existing key keeps its position,
  assignment to a fresh key appends at the end, `pop` removes the entry;
* a raised exception is an `Except` error value.
-/

/-! ## Association lists: the embedding of Python dicts keyed by vertices -/

/-- Insertion-ordered map from vertex ids to `α`, embedding a Python dict. -/
abbrev VMap (α : Type) : Type := List (Nat × α)

/-- Keys of the dict, in insertion order. -/
def akeys {α : Type} (l : VMap α) : List Nat := l.map (fun p => p.1)

/-- `l[k]` lookup: value at the first entry with key `k`. -/
def alookup {α : Type} (l : VMap α) (k : Nat) : Option α :=
  match l with
  | [] => none
  | (k', v) :: t => if k' = k then some v else alookup t k

/-- `l[k] = v` assignment: replace the value of an existing key in place,
or append a fresh key at the end (Python dict assignment semantics). -/
def aset {α : Type} (l : VMap α) (k : Nat) (v : α) : VMap α :=
  match l with
  | [] => [(k, v)]
  | (k', v') :: t => if k' = k then (k, v) :: t else (k', v') :: aset t k v

/-- `l.pop(k)`: drop the entry with key `k` (all entries with that key;
keys are unique in every dict the program builds). -/
def aerase {α : Type} (l : VMap α) (k : Nat) : VMap α :=
  l.filter (fun p => p.1 ≠ k)

/-- `l[k]` where the program guarantees the key is present; defaults
to `d` on the (unreachable) missing-key path. -/
def agetD {α : Type} (l : VMap α) (k : Nat) (d : α) : α :=
  (alookup l k).getD d

@[simp] theorem akeys_nil {α : Type} : akeys ([] : VMap α) = [] := rfl

@[simp] theorem akeys_cons {α : Type} (k : Nat) (v : α) (t : VMap α) :
    akeys ((k, v) :: t) = k :: akeys t := rfl

theorem alookup_eq_none_iff {α : Type} (l : VMap α) (k : Nat) :
    alookup l k = none ↔ k ∉ akeys l := by
  induction l with
  | nil => simp [alookup]
  | cons p t ih =>
    obtain ⟨k', v⟩ := p
    by_cases h : k' = k
    · subst h; simp [alookup, akeys_cons]
    · have h' : k ≠ k' := fun hh => h hh.symm
      simp [alookup, akeys_cons, h, h', ih]

theorem alookup_isSome_iff {α : Type} (l : VMap α) (k : Nat) :
    (alookup l k).isSome ↔ k ∈ akeys l := by
  rw [Option.isSome_iff_ne_none, Ne, alookup_eq_none_iff]
  exact not_not

theorem mem_akeys_of_alookup {α : Type} {l : VMap α} {k : Nat} {v : α}
    (h : alookup l k = some v) : k ∈ akeys l := by
  rw [← alookup_isSome_iff, h]; rfl

theorem alookup_aset_self {α : Type} (l : VMap α) (k : Nat) (v : α) :
    alookup (aset l k v) k = some v := by
  induction l with
  | nil => simp [aset, alookup]
  | cons p t ih =>
    obtain ⟨k', v'⟩ := p
    by_cases h : k' = k <;> simp [aset, alookup, h, ih]

theorem alookup_aset_ne {α : Type} (l : VMap α) (k k' : Nat) (v : α)
    (h : k ≠ k') : alookup (aset l k v) k' = alookup l k' := by
  induction l with
  | nil => simp [aset, alookup, h]
  | cons p t ih =>
    obtain ⟨k'', v''⟩ := p
    by_cases h2 : k'' = k
    · subst h2; simp [aset, alookup, h]
    · simp [aset, alookup, h2, ih]

theorem akeys_aset_of_mem {α : Type} {l : VMap α} {k : Nat} (v : α)
    (h : k ∈ akeys l) : akeys (aset l k v) = akeys l := by
  induction l with
  | nil => simp [akeys_nil] at h
  | cons p t ih =>
    obtain ⟨k', v'⟩ := p
    by_cases h2 : k' = k
    · simp [aset, h2, akeys_cons]
    · rw [akeys_cons] at h
      rcases List.mem_cons.mp h with h3 | h3
      · exact absurd h3.symm h2
      · simp [aset, h2, akeys_cons, ih h3]

theorem akeys_aset_of_not_mem {α : Type} {l : VMap α} {k : Nat} (v : α)
    (h : k ∉ akeys l) : akeys (aset l k v) = akeys l ++ [k] := by
  induction l with
  | nil => simp [aset, akeys_cons]
  | cons p t ih =>
    obtain ⟨k', v'⟩ := p
    rw [akeys_cons] at h
    simp only [List.mem_cons] at h
    push_neg at h
    simp [aset, Ne.symm h.1, akeys_cons, ih h.2]

theorem mem_akeys_aset {α : Type} (l : VMap α) (k k' : Nat) (v : α) :
    k' ∈ akeys (aset l k v) ↔ k' ∈ akeys l ∨ k' = k := by
  by_cases h : k ∈ akeys l
  · rw [akeys_aset_of_mem v h]
    constructor
    · exact fun h' => Or.inl h'
    · rintro (h' | h')
      · exact h'
      · exact h' ▸ h
  · rw [akeys_aset_of_not_mem v h]; simp

theorem aerase_cons {α : Type} (k' : Nat) (v : α) (t : VMap α) (k : Nat) :
    aerase ((k', v) :: t) k =
      if k' = k then aerase t k else (k', v) :: aerase t k := by
  by_cases h : k' = k <;> simp [aerase, List.filter_cons, h]

theorem akeys_aerase {α : Type} (l : VMap α) (k : Nat) :
    akeys (aerase l k) = (akeys l).filter (fun x => x ≠ k) := by
  induction l with
  | nil => simp [aerase]
  | cons p t ih =>
    obtain ⟨k', v'⟩ := p
    rw [aerase_cons]
    by_cases h : k' = k <;>
      simp [h, akeys_cons, List.filter_cons, ih]

theorem alookup_aerase_self {α : Type} (l : VMap α) (k : Nat) :
    alookup (aerase l k) k = none := by
  rw [alookup_eq_none_iff, akeys_aerase]
  simp [List.mem_filter]

theorem alookup_aerase_ne {α : Type} (l : VMap α) (k k' : Nat)
    (h : k ≠ k') : alookup (aerase l k) k' = alookup l k' := by
  induction l with
  | nil => simp [aerase, alookup]
  | cons p t ih =>
    obtain ⟨k'', v''⟩ := p
    rw [aerase_cons]
    by_cases h2 : k'' = k
    · subst h2; simp [alookup, h, ih]
    · simp [alookup, h2, ih]

theorem not_mem_akeys_aerase {α : Type} (l : VMap α) (k : Nat) :
    k ∉ akeys (aerase l k) := by
  rw [← alookup_eq_none_iff]
  exact alookup_aerase_self l k

theorem mem_akeys_aerase {α : Type} (l : VMap α) (k k' : Nat) :
    k' ∈ akeys (aerase l k) ↔ k' ∈ akeys l ∧ k' ≠ k := by
  rw [akeys_aerase]
  simp [List.mem_filter]

theorem aset_aset_same {α : Type} (l : VMap α) (k : Nat) (a b : α) :
    aset (aset l k a) k b = aset l k b := by
  induction l with
  | nil => simp [aset]
  | cons p t ih =>
    obtain ⟨k', v'⟩ := p
    by_cases h : k' = k <;> simp [aset, h, ih]

theorem aset_comm {α : Type} (l : VMap α) (k1 k2 : Nat) (a b : α)
    (h : k1 ≠ k2) (h1 : k1 ∈ akeys l) (h2 : k2 ∈ akeys l) :
    aset (aset l k1 a) k2 b = aset (aset l k2 b) k1 a := by
  induction l with
  | nil => simp [akeys_nil] at h1
  | cons p t ih =>
    obtain ⟨k', v'⟩ := p
    by_cases e1 : k' = k1
    · subst e1
      simp [aset, h, Ne.symm h]
    · by_cases e2 : k' = k2
      · subst e2
        simp [aset, e1, Ne.symm h, h]
      · rw [akeys_cons] at h1 h2
        have h1' : k1 ∈ akeys t := by
          rcases List.mem_cons.mp h1 with hh | hh
          · exact absurd hh.symm e1
          · exact hh
        have h2' : k2 ∈ akeys t := by
          rcases List.mem_cons.mp h2 with hh | hh
          · exact absurd hh.symm e2
          · exact hh
        simp [aset, e1, e2, ih h1' h2']

/-! ## Edges and the Digraph data structure of `algorithms/graph.py` -/

namespace Pygraph

/-- `Edge(u, v, tag, distance)` of `graph.py`: a directed arc from the vertex
with id `head` to the vertex with id `tail`, carrying a tag and a distance
(weight, default 1). -/
structure Edge where
  head : Nat
  tail : Nat
  tag : String
  distance : Int
deriving DecidableEq

/-- `Edge.__eq__`: two edges are equal exactly when their ordered endpoint
pairs coincide (the tag and distance are ignored). -/
def Edge.pairEq (e1 e2 : Edge) : Bool :=
  e1.head = e2.head ∧ e1.tail = e2.tail

/-- Exceptions the graph code can raise: `ValueError('vertex not in the
graph')` from `_validate_vertex`, and a `KeyError` from a direct dict
access on a missing key. -/
inductive GErr where
  | notMember
  | keyError
deriving DecidableEq

/-- `Digraph`: the two adjacency maps, `outgoing[u][v] = edge(u, v)` and
`incoming[v][u] = edge(u, v)`. -/
structure Digraph where
  outgoing : VMap (VMap Edge)
  incoming : VMap (VMap Edge)
deriving DecidableEq

/-- Nested dict assignment `m[u][v] = e` (with `u` a key of `m`, as the
callers guarantee). -/
def assign2 (m : VMap (VMap Edge)) (u v : Nat) (e : Edge) : VMap (VMap Edge) :=
  aset m u (aset (agetD m u []) v e)

/-- Nested dict removal `m[u].pop(v)` (with `u` a key of `m` and `v` a key
of `m[u]`, as the callers guarantee). -/
def pop2 (m : VMap (VMap Edge)) (u v : Nat) : VMap (VMap Edge) :=
  aset m u (aerase (agetD m u []) v)

/-- Nested lookup `m[u][v]` as an `Option`. -/
def vlookup2 (m : VMap (VMap Edge)) (u v : Nat) : Option Edge :=
  (alookup m u).bind (fun inner => alookup inner v)

/-- All edge objects stored in the secondary maps of `m`, with
repetitions, in iteration order. -/
def allValues (m : VMap (VMap Edge)) : List Edge :=
  (m.map (fun p => p.2.map (fun q => q.2))).flatten

namespace Digraph

/-- `Digraph()`: the empty graph. -/
def empty : Digraph := ⟨[], []⟩

/-- `__contains__` / membership: `v in self.vertices()`, i.e. `v` is a key
of the outgoing map. -/
def contains (g : Digraph) (v : Nat) : Bool :=
  (akeys g.outgoing).contains v

/-- `vertex_count`: `len(self._outgoing)`. -/
def vertex_count (g : Digraph) : Nat := g.outgoing.length

/-- `vertices`: the keys of the outgoing map, in insertion order. -/
def vertices (g : Digraph) : List Nat := akeys g.outgoing

/-- `edge_count`: the sum of the sizes of the outgoing secondary maps. -/
def edge_count (g : Digraph) : Nat :=
  (g.outgoing.map (fun p => p.2.length)).sum

/-- All values stored in the outgoing secondary maps, with repetitions:
the edge objects `edges` iterates over before set-deduplication. -/
def allEdges (g : Digraph) : List Edge :=
  allValues g.outgoing

/-- Set-insertion used by `edges`: the Python `set` deduplicates by
`Edge.__eq__`, i.e. by the ordered endpoint pair. -/
def pairInsert (acc : List Edge) (e : Edge) : List Edge :=
  if acc.any (fun x => Edge.pairEq x e) then acc else acc ++ [e]

/-- `edges`: union of all outgoing secondary-map values, deduplicated by
the endpoint pair (the `set` in the Python code). -/
def edgesList (g : Digraph) : List Edge :=
  g.allEdges.foldl pairInsert []

/-- `edge(u, v)`: validate both endpoints, then return the edge from `u`
to `v`, or `None` if not adjacent. -/
def edge (g : Digraph) (u v : Nat) : Except GErr (Option Edge) :=
  if ¬ g.contains u then .error .notMember
  else if ¬ g.contains v then .error .notMember
  else .ok (vlookup2 g.outgoing u v)

/-- `successors(v)`: validate membership, then return `self._outgoing[v]`. -/
def successors (g : Digraph) (v : Nat) : Except GErr (VMap Edge) :=
  if ¬ g.contains v then .error .notMember
  else match alookup g.outgoing v with
       | some m => .ok m
       | none => .error .keyError

/-- `predecessors(v)`: validate membership, then return `self._incoming[v]`. -/
def predecessors (g : Digraph) (v : Nat) : Except GErr (VMap Edge) :=
  if ¬ g.contains v then .error .notMember
  else match alookup g.incoming v with
       | some m => .ok m
       | none => .error .keyError

/-- `out_degree(v)`: validate membership, then `len(self._outgoing[v])`. -/
def out_degree (g : Digraph) (v : Nat) : Except GErr Nat :=
  (g.successors v).map (fun m => m.length)

/-- `in_degree(v)`: validate membership, then `len(self._incoming[v])`. -/
def in_degree (g : Digraph) (v : Nat) : Except GErr Nat :=
  (g.predecessors v).map (fun m => m.length)

/-- `insert_vertex(v)`: if absent, add `v` with empty outgoing and
incoming maps; return `v`. -/
def insert_vertex (g : Digraph) (v : Nat) : Nat × Digraph :=
  if g.contains v then (v, g)
  else (v, ⟨aset g.outgoing v [], aset g.incoming v []⟩)

/-- The endpoint auto-insertion prelude shared by both `insert_edge`
methods: `if u not in self: self.insert_vertex(u)`, then the same for `v`. -/
def autoInsert (g : Digraph) (e : Edge) : Digraph :=
  let g1 := if g.contains e.head then g else (g.insert_vertex e.head).2
  if g1.contains e.tail then g1 else (g1.insert_vertex e.tail).2

/-- `insert_edge(e)`: auto-insert missing endpoints, then record `e` under
`outgoing[head][tail]` and `incoming[tail][head]`; return `e`.  The two
inner dict accesses cannot miss: both endpoints are keys after the
auto-insertions, so they are embedded with a default. -/
def insert_edge (g : Digraph) (e : Edge) : Edge × Digraph :=
  let g2 := autoInsert g e
  (e, ⟨assign2 g2.outgoing e.head e.tail e, assign2 g2.incoming e.tail e.head e⟩)

/-- `remove_edge(u, v)`: look the edge up via `edge(u, v)` (which validates
membership); if present, pop it from both adjacency maps; return the
removed edge or `None`.  The two inner dict pops cannot miss: the edge
was just found there. -/
def remove_edge (g : Digraph) (u v : Nat) : Except GErr (Option Edge × Digraph) := do
  let eo ← g.edge u v
  match eo with
  | none => pure (none, g)
  | some e =>
      pure (some e, ⟨pop2 g.outgoing u v, pop2 g.incoming v u⟩)

/-- `reverse()`: swap the outgoing and incoming maps wholesale. -/
def reverse (g : Digraph) : Digraph := ⟨g.incoming, g.outgoing⟩

end Digraph

/-- `remove_vertex(v)` body shared between `Digraph` and `Graph`: the
`self.remove_edge` calls inside the loop dispatch dynamically, so the
loop is parameterized by the removal operation. -/
def removeVertexWith
    (rem : Digraph → Nat → Nat → Except GErr (Option Edge × Digraph))
    (g : Digraph) (v : Nat) : Except GErr Digraph :=
  if ¬ g.contains v then .error .notMember
  else do
    let g1 ← (g.vertices).foldlM
      (fun gi u => do
        let (_, gi) ← rem gi u v
        let (_, gi) ← rem gi v u
        pure gi) g
    pure ⟨aerase g1.outgoing v, aerase g1.incoming v⟩

/-- `Digraph.remove_vertex(v)`: validate membership, remove every incident
edge by scanning all vertices, then pop `v` from both maps. -/
def Digraph.remove_vertex (g : Digraph) (v : Nat) : Except GErr Digraph :=
  removeVertexWith Digraph.remove_edge g v

namespace Graph

/-- `Graph.insert_edge(e)`: auto-insert missing endpoints, then record `e`
under both orientations in both maps. -/
def insert_edge (g : Digraph) (e : Edge) : Edge × Digraph :=
  let g2 := Digraph.autoInsert g e
  let o1 := assign2 g2.outgoing e.head e.tail e
  let i1 := assign2 g2.incoming e.tail e.head e
  let o2 := assign2 o1 e.tail e.head e
  let i2 := assign2 i1 e.head e.tail e
  (e, ⟨o2, i2⟩)

/-- `Graph.remove_edge(u, v)`: remove the `(u, v)` entry, then remove the
`(v, u)` entry, returning the result of the second removal. -/
def remove_edge (g : Digraph) (u v : Nat) : Except GErr (Option Edge × Digraph) := do
  let (_, g1) ← Digraph.remove_edge g u v
  Digraph.remove_edge g1 v u

/-- `Graph.remove_vertex(v)`: the inherited loop, with the `remove_edge`
calls dispatching to `Graph.remove_edge`. -/
def remove_vertex (g : Digraph) (v : Nat) : Except GErr Digraph :=
  removeVertexWith Graph.remove_edge g v

end Graph

/-! ## Breadth-first search (`chap14/bfs.py`)

The graph construction of `bfs.py` uses the `Digraph` above.  The
traversal procedure `complete_breadth_first_search` is imported from
`algorithms/graphalgo.py`, which is not among the provided sources, so the
traversal itself is modelled from the specification. -/

/-- Traversal colors of a vertex: white (undiscovered), gray (frontier),
black (finished). -/
inductive Color where
  | white
  | gray
  | black
deriving DecidableEq

/-- The traversal-state fields of a `Vertex`: color, predecessor,
distance from the source (`none` embeds `float('inf')`), and the
discover/finish order counters. -/
structure VState where
  color : Color
  predecessor : Option Nat
  distance : Option Nat
  discover : Nat
  finish : Nat
deriving DecidableEq

/-- Modelled from the spec: the FIFO frontier loop of the breadth-first
traversal of §4.5 (`complete_breadth_first_search` lives in
`algorithms/graphalgo.py`, which is not part of the provided sources).
Dequeue a gray vertex, scan its successors in adjacency order, turn each
white successor gray with predecessor and distance-plus-one and the next
discover counter, enqueue it; then mark the dequeued vertex black with
the next finish counter.  `fuel` bounds the iteration count. -/
def bfsLoop (g : Digraph) : Nat → VMap VState → List Nat → Nat → VMap VState × Nat
  | 0, st, _, t => (st, t)
  | _ + 1, st, [], t => (st, t)
  | fuel + 1, st, u :: q, t =>
      let du : Option Nat :=
        match alookup st u with
        | some s => s.distance
        | none => none
      let succ := akeys (agetD g.outgoing u [])
      let step := succ.foldl
        (fun acc v =>
          let (st, q2, t) := acc
          match alookup st v with
          | some s =>
              if s.color = Color.white then
                (aset st v { s with
                    color := Color.gray
                    predecessor := some u
                    distance := du.map (fun d => d + 1)
                    discover := t },
                 q2 ++ [v], t + 1)
              else (st, q2, t)
          | none => (st, q2, t))
        (st, q, t)
      let st2 := step.1
      let q2 := step.2.1
      let t2 := step.2.2
      let st3 :=
        match alookup st2 u with
        | some s => aset st2 u { s with color := Color.black, finish := t2 }
        | none => st2
      bfsLoop g fuel st3 q2 (t2 + 1)

/-- Modelled from the spec: seed a source vertex to gray and distance
zero, assigning the next discover counter. -/
def bfsSeed (st : VMap VState) (s : Nat) (t : Nat) : VMap VState × Nat :=
  match alookup st s with
  | some r =>
      (aset st s { r with color := Color.gray, distance := some 0, discover := t }, t + 1)
  | none => (st, t)

/-- Modelled from the spec: `complete_breadth_first_search` of
`algorithms/graphalgo.py` (not among the provided sources).  Initialize
every vertex to white, infinite distance and absent predecessor; then,
scanning the vertices in order, restart a FIFO breadth-first traversal
from every still-white vertex, sharing one monotone counter across the
restarts. -/
def complete_breadth_first_search (g : Digraph) : VMap VState :=
  let st0 : VMap VState :=
    (g.vertices).foldl
      (fun st v => aset st v ⟨Color.white, none, none, 0, 0⟩) []
  let run := (g.vertices).foldl
    (fun (acc : VMap VState × Nat) v =>
      let (st, t) := acc
      match alookup st v with
      | some r =>
          if r.color = Color.white then
            let seeded := bfsSeed st v t
            bfsLoop g (g.vertex_count + 1) seeded.1 [v] seeded.2
          else (st, t)
      | none => (st, t))
    (st0, 0)
  run.1

/-! ## Operation sequences and reachable-state invariants -/

/-- One public `Digraph` mutation. -/
inductive DOp where
  | insV (v : Nat)
  | insE (e : Edge)
  | remE (u v : Nat)
  | remV (v : Nat)
  | rev

/-- Apply one `Digraph` operation; a raised exception aborts the run. -/
def dstep (g : Digraph) : DOp → Except GErr Digraph
  | .insV v => .ok (g.insert_vertex v).2
  | .insE e => .ok (Digraph.insert_edge g e).2
  | .remE u v => (Digraph.remove_edge g u v).map (fun p => p.2)
  | .remV v => Digraph.remove_vertex g v
  | .rev => .ok g.reverse

/-- Run a sequence of `Digraph` operations from the empty graph. -/
def drun (ops : List DOp) : Except GErr Digraph :=
  ops.foldlM dstep Digraph.empty

/-- One public mutation of the undirected `Graph`. -/
inductive GOp where
  | insV (v : Nat)
  | insE (e : Edge)
  | remE (u v : Nat)
  | remV (v : Nat)

/-- Apply one `Graph` operation (dynamic dispatch picks the overridden
`insert_edge` / `remove_edge`). -/
def gstep (g : Digraph) : GOp → Except GErr Digraph
  | .insV v => .ok (g.insert_vertex v).2
  | .insE e => .ok (Graph.insert_edge g e).2
  | .remE u v => (Graph.remove_edge g u v).map (fun p => p.2)
  | .remV v => Graph.remove_vertex g v

/-- Run a sequence of `Graph` operations from the empty graph. -/
def grun (ops : List GOp) : Except GErr Digraph :=
  ops.foldlM gstep Digraph.empty

/-- Whether a `Graph` operation is an `insert_edge` or `remove_edge` call. -/
def GOp.edgeOnly : GOp → Bool
  | .insE _ => true
  | .remE _ _ => true
  | _ => false

/-- Well-formed key structure of an adjacency map: the outer dict and
every inner dict have duplicate-free keys (true of every Python dict). -/
def wfKeys (m : VMap (VMap Edge)) : Prop :=
  (akeys m).Nodup ∧ ∀ p ∈ m, (akeys p.2).Nodup

/-- Slot well-formedness: every stored edge sits in a slot named by its
own endpoints (in order, or in reverse order after a `reverse()`). -/
def wfE (g : Digraph) : Prop :=
  ∀ a b e, vlookup2 g.outgoing a b = some e →
    (e.head = a ∧ e.tail = b) ∨ (e.head = b ∧ e.tail = a)

/-- The `Digraph` consistency invariant: the two adjacency maps list the
same vertices in the same order, mirror each other entry for entry, and
have well-formed keys and slots. -/
def DInv (g : Digraph) : Prop :=
  akeys g.outgoing = akeys g.incoming ∧
  (∀ u v, vlookup2 g.outgoing u v = vlookup2 g.incoming v u) ∧
  (wfKeys g.outgoing ∧ wfKeys g.incoming) ∧ wfE g

/-- The undirected `Graph` invariant: the incoming map is identical to
the outgoing map, and the outgoing map is symmetric — the `(u, v)` and
`(v, u)` entries hold the same edge object. -/
def GInv (g : Digraph) : Prop :=
  g.incoming = g.outgoing ∧
  (∀ u v, vlookup2 g.outgoing u v = vlookup2 g.outgoing v u)

/-! ## Characterization lemmas for the adjacency-map operations -/

theorem agetD_of_alookup {m : VMap (VMap Edge)} {u : Nat} {M : VMap Edge}
    (h : alookup m u = some M) : agetD m u [] = M := by
  simp [agetD, h]

theorem vlookup2_assign2_self (m : VMap (VMap Edge)) (u v : Nat) (e : Edge) :
    vlookup2 (assign2 m u v e) u v = some e := by
  unfold vlookup2 assign2
  rw [alookup_aset_self]
  simp [alookup_aset_self]

theorem vlookup2_assign2_ne (m : VMap (VMap Edge)) (u v : Nat) (e : Edge)
    (a b : Nat) (h : ¬(a = u ∧ b = v)) :
    vlookup2 (assign2 m u v e) a b = vlookup2 m a b := by
  by_cases ha : a = u
  · subst ha
    have hb : v ≠ b := fun hb => h ⟨rfl, hb.symm⟩
    unfold vlookup2 assign2
    rw [alookup_aset_self]
    simp only [Option.some_bind]
    rw [alookup_aset_ne _ _ _ _ hb]
    unfold agetD
    cases alookup m a <;> simp [alookup]
  · unfold vlookup2 assign2
    rw [alookup_aset_ne _ _ _ _ (fun hh => ha hh.symm)]

theorem vlookup2_pop2_self (m : VMap (VMap Edge)) (u v : Nat) :
    vlookup2 (pop2 m u v) u v = none := by
  unfold vlookup2 pop2
  rw [alookup_aset_self]
  simp [alookup_aerase_self]

theorem vlookup2_pop2_ne (m : VMap (VMap Edge)) (u v : Nat)
    (a b : Nat) (h : ¬(a = u ∧ b = v)) :
    vlookup2 (pop2 m u v) a b = vlookup2 m a b := by
  by_cases ha : a = u
  · subst ha
    have hb : v ≠ b := fun hb => h ⟨rfl, hb.symm⟩
    unfold vlookup2 pop2
    rw [alookup_aset_self]
    simp only [Option.some_bind]
    rw [alookup_aerase_ne _ _ _ hb]
    unfold agetD
    cases alookup m a <;> simp [alookup]
  · unfold vlookup2 pop2
    rw [alookup_aset_ne _ _ _ _ (fun hh => ha hh.symm)]

theorem mem_akeys_assign2 (m : VMap (VMap Edge)) (u v : Nat) (e : Edge)
    (a : Nat) : a ∈ akeys (assign2 m u v e) ↔ a ∈ akeys m ∨ a = u :=
  mem_akeys_aset m u a _

theorem mem_akeys_pop2 (m : VMap (VMap Edge)) (u v : Nat)
    (a : Nat) : a ∈ akeys (pop2 m u v) ↔ a ∈ akeys m ∨ a = u :=
  mem_akeys_aset m u a _

theorem Digraph.contains_iff (g : Digraph) (v : Nat) :
    g.contains v = true ↔ v ∈ akeys g.outgoing := by
  simp [Digraph.contains]

theorem Digraph.contains_eq_false_iff (g : Digraph) (v : Nat) :
    g.contains v = false ↔ v ∉ akeys g.outgoing := by
  rw [← Digraph.contains_iff]
  cases g.contains v <;> simp

/-- `insert_vertex` is a no-op on a present vertex, and its own presence
check makes the `if` guards in `autoInsert` redundant. -/
theorem autoInsert_eq (g : Digraph) (e : Edge) :
    Digraph.autoInsert g e = (((g.insert_vertex e.head).2).insert_vertex e.tail).2 := by
  unfold Digraph.autoInsert Digraph.insert_vertex
  by_cases h1 : g.contains e.head = true <;>
    simp only [h1, if_true, Bool.false_eq_true, if_false] <;>
    split <;> simp_all

theorem vlookup2_aset_fresh (m : VMap (VMap Edge)) (w : Nat)
    (hw : w ∉ akeys m) (a b : Nat) :
    vlookup2 (aset m w []) a b = vlookup2 m a b := by
  by_cases haw : w = a
  · subst haw
    unfold vlookup2
    rw [alookup_aset_self, (alookup_eq_none_iff m w).mpr hw]
    simp [alookup]
  · unfold vlookup2
    rw [alookup_aset_ne _ _ _ _ haw]

theorem insert_vertex_vlookup2_out (g : Digraph) (v a b : Nat) :
    vlookup2 ((g.insert_vertex v).2).outgoing a b = vlookup2 g.outgoing a b := by
  unfold Digraph.insert_vertex
  by_cases h : g.contains v = true
  · simp [h]
  · have h' := (Digraph.contains_eq_false_iff g v).mp (by simpa using h)
    simp only [h, Bool.false_eq_true, if_false]
    exact vlookup2_aset_fresh _ _ h' a b

theorem insert_vertex_mem_akeys (g : Digraph) (v a : Nat) :
    a ∈ akeys ((g.insert_vertex v).2).outgoing ↔ a ∈ akeys g.outgoing ∨ a = v := by
  unfold Digraph.insert_vertex
  by_cases h : g.contains v = true
  · simp only [h, if_true]
    constructor
    · exact fun hh => Or.inl hh
    · rintro (hh | hh)
      · exact hh
      · exact hh ▸ (Digraph.contains_iff g v).mp h
  · simp only [h, Bool.false_eq_true, if_false]
    exact mem_akeys_aset g.outgoing v a []

/-- The auto-insertion prelude leaves the outgoing entries untouched: the
vertices it adds come with empty secondary maps. -/
theorem vlookup2_autoInsert_out (g : Digraph) (e : Edge) (a b : Nat) :
    vlookup2 (Digraph.autoInsert g e).outgoing a b = vlookup2 g.outgoing a b := by
  rw [autoInsert_eq, insert_vertex_vlookup2_out, insert_vertex_vlookup2_out]

theorem mem_akeys_autoInsert_out (g : Digraph) (e : Edge) (a : Nat) :
    a ∈ akeys (Digraph.autoInsert g e).outgoing ↔
      a ∈ akeys g.outgoing ∨ a = e.head ∨ a = e.tail := by
  rw [autoInsert_eq, insert_vertex_mem_akeys, insert_vertex_mem_akeys]
  tauto

theorem contains_autoInsert_head (g : Digraph) (e : Edge) :
    (Digraph.autoInsert g e).contains e.head = true := by
  rw [Digraph.contains_iff, mem_akeys_autoInsert_out]
  exact Or.inr (Or.inl rfl)

theorem contains_autoInsert_tail (g : Digraph) (e : Edge) :
    (Digraph.autoInsert g e).contains e.tail = true := by
  rw [Digraph.contains_iff, mem_akeys_autoInsert_out]
  exact Or.inr (Or.inr rfl)

theorem alookup_assign2_self (m : VMap (VMap Edge)) (u v : Nat) (e : Edge) :
    alookup (assign2 m u v e) u = some (aset (agetD m u []) v e) :=
  alookup_aset_self m u _

theorem alookup_assign2_ne (m : VMap (VMap Edge)) (u v : Nat) (e : Edge)
    (a : Nat) (h : u ≠ a) : alookup (assign2 m u v e) a = alookup m a :=
  alookup_aset_ne m u a _ h

/-! ## C1: postconditions of `insert_edge` -/

/-- C1: after `insert_edge(e)` with endpoints `(u, v)`, on a `Digraph` as
well as on an undirected `Graph`: `insert_edge` returns `e`, both
endpoints are members of the graph, `edge(u, v)` returns `e`, `v` is a
key of `successors(u)`, and `u` is a key of `predecessors(v)`. -/
theorem c1_insert_edge_postconditions (g : Digraph) (e : Edge) :
    ((Digraph.insert_edge g e).1 = e ∧
     (Digraph.insert_edge g e).2.contains e.head = true ∧
     (Digraph.insert_edge g e).2.contains e.tail = true ∧
     Digraph.edge (Digraph.insert_edge g e).2 e.head e.tail = .ok (some e) ∧
     (∃ m, Digraph.successors (Digraph.insert_edge g e).2 e.head = .ok m ∧
           e.tail ∈ akeys m) ∧
     (∃ m, Digraph.predecessors (Digraph.insert_edge g e).2 e.tail = .ok m ∧
           e.head ∈ akeys m)) ∧
    ((Graph.insert_edge g e).1 = e ∧
     (Graph.insert_edge g e).2.contains e.head = true ∧
     (Graph.insert_edge g e).2.contains e.tail = true ∧
     Digraph.edge (Graph.insert_edge g e).2 e.head e.tail = .ok (some e) ∧
     (∃ m, Digraph.successors (Graph.insert_edge g e).2 e.head = .ok m ∧
           e.tail ∈ akeys m) ∧
     (∃ m, Digraph.predecessors (Graph.insert_edge g e).2 e.tail = .ok m ∧
           e.head ∈ akeys m)) := by
  set gm := Digraph.autoInsert g e with hgm
  constructor
  · -- Digraph.insert_edge
    have hout : (Digraph.insert_edge g e).2.outgoing =
        assign2 gm.outgoing e.head e.tail e := rfl
    have hinc : (Digraph.insert_edge g e).2.incoming =
        assign2 gm.incoming e.tail e.head e := rfl
    have hch : (Digraph.insert_edge g e).2.contains e.head = true := by
      rw [Digraph.contains_iff, hout, mem_akeys_assign2]
      exact Or.inr rfl
    have hct : (Digraph.insert_edge g e).2.contains e.tail = true := by
      rw [Digraph.contains_iff, hout, mem_akeys_assign2]
      exact Or.inl ((Digraph.contains_iff gm e.tail).mp (contains_autoInsert_tail g e))
    refine ⟨rfl, hch, hct, ?_, ?_, ?_⟩
    · rw [Digraph.edge]
      simp only [hch, hct, not_true_eq_false, if_false]
      rw [hout, vlookup2_assign2_self]
    · refine ⟨aset (agetD gm.outgoing e.head []) e.tail e, ?_, ?_⟩
      · rw [Digraph.successors]
        simp only [hch, not_true_eq_false, if_false]
        rw [hout, alookup_assign2_self]
      · exact (mem_akeys_aset _ e.tail e.tail e).mpr (Or.inr rfl)
    · refine ⟨aset (agetD gm.incoming e.tail []) e.head e, ?_, ?_⟩
      · rw [Digraph.predecessors]
        simp only [hct, not_true_eq_false, if_false]
        rw [hinc, alookup_assign2_self]
      · exact (mem_akeys_aset _ e.head e.head e).mpr (Or.inr rfl)
  · -- Graph.insert_edge
    have hout : (Graph.insert_edge g e).2.outgoing =
        assign2 (assign2 gm.outgoing e.head e.tail e) e.tail e.head e := rfl
    have hinc : (Graph.insert_edge g e).2.incoming =
        assign2 (assign2 gm.incoming e.tail e.head e) e.head e.tail e := rfl
    have hch : (Graph.insert_edge g e).2.contains e.head = true := by
      rw [Digraph.contains_iff, hout, mem_akeys_assign2, mem_akeys_assign2]
      exact Or.inl (Or.inr rfl)
    have hct : (Graph.insert_edge g e).2.contains e.tail = true := by
      rw [Digraph.contains_iff, hout, mem_akeys_assign2]
      exact Or.inr rfl
    refine ⟨rfl, hch, hct, ?_, ?_, ?_⟩
    · rw [Digraph.edge]
      simp only [hch, hct, not_true_eq_false, if_false]
      rw [hout]
      by_cases hht : e.head = e.tail
      · rw [hht, vlookup2_assign2_self]
      · rw [vlookup2_assign2_ne _ _ _ _ _ _ (fun hc => hht hc.1),
            vlookup2_assign2_self]
    · by_cases hht : e.head = e.tail
      · refine ⟨aset (agetD (assign2 gm.outgoing e.head e.tail e) e.tail [])
            e.head e, ?_, ?_⟩
        · rw [Digraph.successors]
          simp only [hch, not_true_eq_false, if_false]
          rw [hout, hht, alookup_assign2_self]
        · exact (mem_akeys_aset _ e.head e.tail e).mpr (Or.inr hht.symm)
      · refine ⟨aset (agetD gm.outgoing e.head []) e.tail e, ?_, ?_⟩
        · rw [Digraph.successors]
          simp only [hch, not_true_eq_false, if_false]
          rw [hout, alookup_assign2_ne _ _ _ _ _ (fun hh => hht hh.symm),
              alookup_assign2_self]
        · exact (mem_akeys_aset _ e.tail e.tail e).mpr (Or.inr rfl)
    · by_cases hht : e.head = e.tail
      · refine ⟨aset (agetD (assign2 gm.incoming e.tail e.head e) e.head [])
            e.tail e, ?_, ?_⟩
        · rw [Digraph.predecessors]
          simp only [hct, not_true_eq_false, if_false]
          rw [hinc, ← hht, alookup_assign2_self]
        · exact (mem_akeys_aset _ e.tail e.head e).mpr (Or.inr hht)
      · refine ⟨aset (agetD gm.incoming e.tail []) e.head e, ?_, ?_⟩
        · rw [Digraph.predecessors]
          simp only [hct, not_true_eq_false, if_false]
          rw [hinc, alookup_assign2_ne _ _ _ _ _ hht, alookup_assign2_self]
        · exact (mem_akeys_aset _ e.head e.head e).mpr (Or.inr rfl)

/-- Reduction of the `Except` monad operations used by `remove_edge`. -/
@[simp] theorem exceptBind_ok {ε α β : Type} (a : α) (f : α → Except ε β) :
    (Except.ok a >>= f) = f a := rfl

@[simp] theorem exceptBind_error {ε α β : Type} (err : ε) (f : α → Except ε β) :
    ((Except.error err : Except ε α) >>= f) = Except.error err := rfl

@[simp] theorem exceptPure_eq_ok {ε α : Type} (a : α) :
    (pure a : Except ε α) = Except.ok a := rfl

/-! ## C5: the `remove_edge` error contract -/

/-- C5: `remove_edge(u, v)` raises exactly when `u` or `v` is not a member
(and the error is the not-a-member one); with both members and no edge it
is a successful no-op returning `None` with the graph unchanged; with the
edge present it removes it from both adjacency maps and returns it. -/
theorem c5_remove_edge_contract (g : Digraph) (u v : Nat) :
    ((∃ err, Digraph.remove_edge g u v = .error err) ↔
       (g.contains u = false ∨ g.contains v = false)) ∧
    (∀ err, Digraph.remove_edge g u v = .error err → err = GErr.notMember) ∧
    (g.contains u = true → g.contains v = true →
      vlookup2 g.outgoing u v = none →
      Digraph.remove_edge g u v = .ok (none, g)) ∧
    (∀ e, g.contains u = true → g.contains v = true →
      vlookup2 g.outgoing u v = some e →
      Digraph.remove_edge g u v =
        .ok (some e, ⟨pop2 g.outgoing u v, pop2 g.incoming v u⟩) ∧
      vlookup2 (pop2 g.outgoing u v) u v = none ∧
      vlookup2 (pop2 g.incoming v u) v u = none) := by
  by_cases hcu : g.contains u = true
  · by_cases hcv : g.contains v = true
    · have hedge : Digraph.edge g u v = .ok (vlookup2 g.outgoing u v) := by
        rw [Digraph.edge]
        simp [hcu, hcv]
      refine ⟨?_, ?_, ?_, ?_⟩
      · constructor
        · rintro ⟨err, herr⟩
          rw [Digraph.remove_edge] at herr
          simp only [hedge] at herr
          cases hvl : vlookup2 g.outgoing u v <;> simp [hvl] at herr
        · rintro (h | h)
          · rw [hcu] at h; cases h
          · rw [hcv] at h; cases h
      · intro err herr
        rw [Digraph.remove_edge] at herr
        simp only [hedge] at herr
        cases hvl : vlookup2 g.outgoing u v <;> simp [hvl] at herr
      · intro _ _ hnone
        rw [Digraph.remove_edge]
        simp [hedge, hnone]
      · intro e _ _ hsome
        refine ⟨?_, vlookup2_pop2_self _ _ _, vlookup2_pop2_self _ _ _⟩
        rw [Digraph.remove_edge]
        simp [hedge, hsome]
    · have hcv' : g.contains v = false := by
        cases h2 : g.contains v
        · rfl
        · exact absurd h2 hcv
      have hedge : Digraph.edge g u v = .error .notMember := by
        rw [Digraph.edge]
        simp [hcu, hcv]
      have hre : Digraph.remove_edge g u v = .error .notMember := by
        rw [Digraph.remove_edge]
        simp [hedge]
      refine ⟨⟨fun _ => Or.inr hcv', fun _ => ⟨.notMember, hre⟩⟩, ?_, ?_, ?_⟩
      · intro err herr
        rw [hre] at herr
        cases herr
        rfl
      · intro _ hv
        rw [hv] at hcv'; cases hcv'
      · intro _ _ hv
        rw [hv] at hcv'; cases hcv'
  · have hcu' : g.contains u = false := by
      cases h2 : g.contains u
      · rfl
      · exact absurd h2 hcu
    have hedge : Digraph.edge g u v = .error .notMember := by
      rw [Digraph.edge]
      simp [hcu]
    have hre : Digraph.remove_edge g u v = .error .notMember := by
      rw [Digraph.remove_edge]
      simp [hedge]
    refine ⟨⟨fun _ => Or.inl hcu', fun _ => ⟨.notMember, hre⟩⟩, ?_, ?_, ?_⟩
    · intro err herr
      rw [hre] at herr
      cases herr
      rfl
    · intro hu
      rw [hu] at hcu'; cases hcu'
    · intro _ hu
      rw [hu] at hcu'; cases hcu'

/-! ## C6: `reverse` is an involution -/

/-- C6: `reverse()` twice restores the graph; one `reverse()` swaps the
outgoing and incoming maps in place, and on a consistent graph every
subsequent query reflects the edge-reversed graph. -/
theorem c6_reverse_involution (g : Digraph) :
    Digraph.reverse (Digraph.reverse g) = g ∧
    (Digraph.reverse g).outgoing = g.incoming ∧
    (Digraph.reverse g).incoming = g.outgoing ∧
    (DInv g → ∀ u v : Nat,
      Digraph.successors (Digraph.reverse g) u = Digraph.predecessors g u ∧
      Digraph.predecessors (Digraph.reverse g) u = Digraph.successors g u ∧
      Digraph.out_degree (Digraph.reverse g) u = Digraph.in_degree g u ∧
      Digraph.in_degree (Digraph.reverse g) u = Digraph.out_degree g u ∧
      Digraph.edge (Digraph.reverse g) u v = Digraph.edge g v u) := by
  refine ⟨rfl, rfl, rfl, ?_⟩
  intro hinv u v
  have hc : ∀ w, (Digraph.reverse g).contains w = g.contains w := by
    intro w
    show (akeys g.incoming).contains w = (akeys g.outgoing).contains w
    rw [hinv.1]
  have hsucc : Digraph.successors (Digraph.reverse g) u = Digraph.predecessors g u := by
    rw [Digraph.successors, Digraph.predecessors, hc u]
    rfl
  have hpred : Digraph.predecessors (Digraph.reverse g) u = Digraph.successors g u := by
    rw [Digraph.predecessors, Digraph.successors, hc u]
    rfl
  refine ⟨hsucc, hpred, ?_, ?_, ?_⟩
  · rw [Digraph.out_degree, Digraph.in_degree, hsucc]
  · rw [Digraph.in_degree, Digraph.out_degree, hpred]
  · rw [Digraph.edge, Digraph.edge, hc u, hc v]
    by_cases h1 : g.contains u = true <;> by_cases h2 : g.contains v = true <;>
      simp only [h1, h2, Bool.false_eq_true, not_true_eq_false, not_false_eq_true,
        if_true, if_false]
    exact congrArg _ (hinv.2.1 v u).symm

/-! ## C8: the breadth-first-search scenario of `chap14/bfs.py` -/

/-- The `Digraph` that the main block of `bfs.py` builds: vertices
A, B, C, D (ids 0, 1, 2, 3) and the seven directed edges AB, BA, AC, CA,
AD, BC, BD, inserted in program order. -/
def gBFS : Digraph :=
  let g := Digraph.empty
  let g := (Digraph.insert_edge g ⟨0, 1, "AB", 1⟩).2
  let g := (Digraph.insert_edge g ⟨1, 0, "BA", 1⟩).2
  let g := (Digraph.insert_edge g ⟨0, 2, "AC", 1⟩).2
  let g := (Digraph.insert_edge g ⟨2, 0, "CA", 1⟩).2
  let g := (Digraph.insert_edge g ⟨0, 3, "AD", 1⟩).2
  let g := (Digraph.insert_edge g ⟨1, 2, "BC", 1⟩).2
  let g := (Digraph.insert_edge g ⟨1, 3, "BD", 1⟩).2
  g

/-- C8: on the `bfs.py` digraph, the complete breadth-first traversal
seeded at A ends with distance(A) = 0, distance(B) = distance(C) =
distance(D) = 1, and predecessor(B) = predecessor(C) = predecessor(D) = A. -/
theorem c8_bfs_scenario :
    (alookup (complete_breadth_first_search gBFS) 0).map VState.distance
      = some (some 0) ∧
    (alookup (complete_breadth_first_search gBFS) 1).map VState.distance
      = some (some 1) ∧
    (alookup (complete_breadth_first_search gBFS) 2).map VState.distance
      = some (some 1) ∧
    (alookup (complete_breadth_first_search gBFS) 3).map VState.distance
      = some (some 1) ∧
    (alookup (complete_breadth_first_search gBFS) 0).map VState.predecessor
      = some none ∧
    (alookup (complete_breadth_first_search gBFS) 1).map VState.predecessor
      = some (some 0) ∧
    (alookup (complete_breadth_first_search gBFS) 2).map VState.predecessor
      = some (some 0) ∧
    (alookup (complete_breadth_first_search gBFS) 3).map VState.predecessor
      = some (some 0) := by
  decide

/-! ## Structural lemmas for key well-formedness -/

theorem mem_aset_elim {α : Type} {l : VMap α} {k : Nat} {v : α} {p : Nat × α}
    (h : p ∈ aset l k v) : p = (k, v) ∨ p ∈ l := by
  induction l with
  | nil => simpa [aset] using h
  | cons q t ih =>
    obtain ⟨k', v'⟩ := q
    by_cases h2 : k' = k
    · simp only [aset, h2, if_true] at h
      rcases List.mem_cons.mp h with h3 | h3
      · exact Or.inl h3
      · exact Or.inr (List.mem_cons_of_mem _ h3)
    · simp only [aset, h2, if_false] at h
      rcases List.mem_cons.mp h with h3 | h3
      · exact Or.inr (h3 ▸ List.mem_cons_self _ _)
      · rcases ih h3 with h4 | h4
        · exact Or.inl h4
        · exact Or.inr (List.mem_cons_of_mem _ h4)

theorem mem_aset_nodup_elim {α : Type} {l : VMap α} {k : Nat} {v : α}
    {p : Nat × α} (hnd : (akeys l).Nodup) (h : p ∈ aset l k v) :
    (p.1 = k ∧ p.2 = v) ∨ (p.1 ≠ k ∧ p ∈ l) := by
  induction l with
  | nil =>
    simp [aset] at h
    exact Or.inl (by simp [h])
  | cons q t ih =>
    obtain ⟨k', v'⟩ := q
    rw [akeys_cons] at hnd
    have hnd1 := (List.nodup_cons.mp hnd).1
    have hnd2 := (List.nodup_cons.mp hnd).2
    by_cases h2 : k' = k
    · subst h2
      simp only [aset, if_true] at h
      rcases List.mem_cons.mp h with h3 | h3
      · exact Or.inl (by simp [h3])
      · have : p.1 ∈ akeys t := by
          rcases p with ⟨pk, pv⟩
          exact List.mem_map_of_mem (fun q => q.1) h3
        by_cases hpk : p.1 = k'
        · exact absurd (hpk ▸ this) hnd1
        · exact Or.inr ⟨hpk, List.mem_cons_of_mem _ h3⟩
    · simp only [aset, h2, if_false] at h
      rcases List.mem_cons.mp h with h3 | h3
      · refine Or.inr ⟨?_, h3 ▸ List.mem_cons_self _ _⟩
        rw [h3]
        exact h2
      · rcases ih hnd2 h3 with h4 | h4
        · exact Or.inl h4
        · exact Or.inr ⟨h4.1, List.mem_cons_of_mem _ h4.2⟩

theorem mem_aset_self_eq {α : Type} {l : VMap α} {k : Nat} {v x : α}
    (hnd : (akeys l).Nodup) (h : (k, x) ∈ aset l k v) : x = v := by
  rcases mem_aset_nodup_elim hnd h with h2 | h2
  · exact h2.2
  · exact absurd rfl h2.1

theorem mem_aerase_elim {α : Type} {l : VMap α} {k : Nat} {p : Nat × α}
    (h : p ∈ aerase l k) : p ∈ l :=
  (List.mem_filter.mp h).1

theorem alookup_mem {α : Type} {l : VMap α} {k : Nat} {v : α}
    (h : alookup l k = some v) : (k, v) ∈ l := by
  induction l with
  | nil => cases h
  | cons q t ih =>
    obtain ⟨k', v'⟩ := q
    by_cases h2 : k' = k
    · subst h2
      simp only [alookup, if_true] at h
      cases h
      exact List.mem_cons_self _ _
    · simp only [alookup, h2, if_false] at h
      exact List.mem_cons_of_mem _ (ih h)

theorem alookup_of_mem_nodup {α : Type} {l : VMap α} {k : Nat} {v : α}
    (hnd : (akeys l).Nodup) (h : (k, v) ∈ l) : alookup l k = some v := by
  induction l with
  | nil => cases h
  | cons q t ih =>
    obtain ⟨k', v'⟩ := q
    rw [akeys_cons] at hnd
    rcases List.mem_cons.mp h with h3 | h3
    · cases h3
      simp [alookup]
    · have hk : k ∈ akeys t := List.mem_map_of_mem (fun q => q.1) h3
      have hne : k' ≠ k := fun hh => (List.nodup_cons.mp hnd).1 (hh ▸ hk)
      simp only [alookup, hne, if_false]
      exact ih (List.nodup_cons.mp hnd).2 h3

theorem nodup_akeys_aset {α : Type} {l : VMap α} (k : Nat) (v : α)
    (hnd : (akeys l).Nodup) : (akeys (aset l k v)).Nodup := by
  by_cases h : k ∈ akeys l
  · rw [akeys_aset_of_mem v h]; exact hnd
  · rw [akeys_aset_of_not_mem v h]
    rw [List.nodup_append]
    refine ⟨hnd, List.nodup_singleton k, ?_⟩
    intro a ha hb
    simp only [List.mem_singleton] at hb
    exact h (hb ▸ ha)

theorem nodup_akeys_aerase {α : Type} {l : VMap α} (k : Nat)
    (hnd : (akeys l).Nodup) : (akeys (aerase l k)).Nodup := by
  rw [akeys_aerase]
  exact hnd.filter _

theorem wfKeys_aset {m : VMap (VMap Edge)} {u : Nat} {M : VMap Edge}
    (hm : wfKeys m) (hM : (akeys M).Nodup) : wfKeys (aset m u M) := by
  refine ⟨nodup_akeys_aset u M hm.1, ?_⟩
  intro p hp
  rcases mem_aset_elim hp with h | h
  · rw [h]; exact hM
  · exact hm.2 p h

theorem wfKeys_aerase {m : VMap (VMap Edge)} {v : Nat}
    (hm : wfKeys m) : wfKeys (aerase m v) :=
  ⟨nodup_akeys_aerase v hm.1, fun p hp => hm.2 p (mem_aerase_elim hp)⟩

theorem nodup_akeys_agetD {m : VMap (VMap Edge)} {u : Nat}
    (hm : wfKeys m) : (akeys (agetD m u [])).Nodup := by
  unfold agetD
  cases hl : alookup m u with
  | none => simp
  | some M => exact hm.2 (u, M) (alookup_mem hl)

theorem wfKeys_assign2 {m : VMap (VMap Edge)} (u v : Nat) (e : Edge)
    (hm : wfKeys m) : wfKeys (assign2 m u v e) :=
  wfKeys_aset hm (nodup_akeys_aset v e (nodup_akeys_agetD hm))

theorem wfKeys_pop2 {m : VMap (VMap Edge)} (u v : Nat)
    (hm : wfKeys m) : wfKeys (pop2 m u v) :=
  wfKeys_aset hm (nodup_akeys_aerase v (nodup_akeys_agetD hm))

theorem vlookup2_isSome_iff (m : VMap (VMap Edge)) (u v : Nat) :
    (vlookup2 m u v).isSome ↔ ∃ M, alookup m u = some M ∧ v ∈ akeys M := by
  unfold vlookup2
  cases hl : alookup m u with
  | none => simp
  | some M => simp [alookup_isSome_iff]

/-! ## Preservation of the Digraph invariant by each public operation -/

theorem dinv_empty : DInv Digraph.empty := by
  refine ⟨rfl, fun u v => rfl, ⟨⟨List.nodup_nil, ?_⟩, ⟨List.nodup_nil, ?_⟩⟩, ?_⟩
  · intro p hp; cases hp
  · intro p hp; cases hp
  · intro a b e h
    simp [vlookup2, alookup, Digraph.empty] at h

theorem contains_eq_false_elim {g : Digraph} {v : Nat}
    (h : ¬ g.contains v = true) : v ∉ akeys g.outgoing := by
  refine (Digraph.contains_eq_false_iff g v).mp ?_
  cases h2 : g.contains v
  · rfl
  · exact absurd h2 h

theorem dinv_insert_vertex {g : Digraph} (hinv : DInv g) (v : Nat) :
    DInv (g.insert_vertex v).2 := by
  obtain ⟨hkeys, hsym, ⟨hwo, hwi⟩, hwe⟩ := hinv
  unfold Digraph.insert_vertex
  by_cases h : g.contains v = true
  · simpa [h] using ⟨hkeys, hsym, ⟨hwo, hwi⟩, hwe⟩
  · have hvo : v ∉ akeys g.outgoing := contains_eq_false_elim h
    have hvi : v ∉ akeys g.incoming := hkeys ▸ hvo
    simp only [h, Bool.false_eq_true, if_false]
    refine ⟨?_, ?_, ⟨wfKeys_aset ⟨hwo.1, hwo.2⟩ List.nodup_nil,
                     wfKeys_aset ⟨hwi.1, hwi.2⟩ List.nodup_nil⟩, ?_⟩
    · show akeys (aset g.outgoing v []) = akeys (aset g.incoming v [])
      rw [akeys_aset_of_not_mem _ hvo, akeys_aset_of_not_mem _ hvi, hkeys]
    · intro a b
      show vlookup2 (aset g.outgoing v []) a b = vlookup2 (aset g.incoming v []) b a
      rw [vlookup2_aset_fresh _ _ hvo, vlookup2_aset_fresh _ _ hvi]
      exact hsym a b
    · intro a b x hx
      rw [show (⟨aset g.outgoing v [], aset g.incoming v []⟩ : Digraph).outgoing
            = aset g.outgoing v [] from rfl, vlookup2_aset_fresh _ _ hvo] at hx
      exact hwe a b x hx

theorem dinv_autoInsert {g : Digraph} (hinv : DInv g) (e : Edge) :
    DInv (Digraph.autoInsert g e) := by
  rw [autoInsert_eq]
  exact dinv_insert_vertex (dinv_insert_vertex hinv e.head) e.tail

theorem dinv_insert_edge {g : Digraph} (hinv : DInv g) (e : Edge) :
    DInv (Digraph.insert_edge g e).2 := by
  have hgm := dinv_autoInsert hinv e
  obtain ⟨hkeys, hsym, ⟨hwo, hwi⟩, hwe⟩ := hgm
  have hheado : e.head ∈ akeys (Digraph.autoInsert g e).outgoing :=
    (Digraph.contains_iff _ _).mp (contains_autoInsert_head g e)
  have htailo : e.tail ∈ akeys (Digraph.autoInsert g e).outgoing :=
    (Digraph.contains_iff _ _).mp (contains_autoInsert_tail g e)
  have htaili : e.tail ∈ akeys (Digraph.autoInsert g e).incoming := hkeys ▸ htailo
  have hout : (Digraph.insert_edge g e).2.outgoing =
      assign2 (Digraph.autoInsert g e).outgoing e.head e.tail e := rfl
  have hinc : (Digraph.insert_edge g e).2.incoming =
      assign2 (Digraph.autoInsert g e).incoming e.tail e.head e := rfl
  refine ⟨?_, ?_, ⟨?_, ?_⟩, ?_⟩
  · rw [hout, hinc]
    unfold assign2
    rw [akeys_aset_of_mem _ hheado, akeys_aset_of_mem _ htaili, hkeys]
  · intro a b
    rw [hout, hinc]
    by_cases hab : a = e.head ∧ b = e.tail
    · rw [hab.1, hab.2, vlookup2_assign2_self, vlookup2_assign2_self]
    · have hba : ¬(b = e.tail ∧ a = e.head) := fun hc => hab ⟨hc.2, hc.1⟩
      rw [vlookup2_assign2_ne _ _ _ _ _ _ hab, vlookup2_assign2_ne _ _ _ _ _ _ hba]
      exact hsym a b
  · rw [hout]; exact wfKeys_assign2 _ _ _ hwo
  · rw [hinc]; exact wfKeys_assign2 _ _ _ hwi
  · intro a b x hx
    rw [hout] at hx
    by_cases hab : a = e.head ∧ b = e.tail
    · rw [hab.1, hab.2, vlookup2_assign2_self] at hx
      cases hx
      exact Or.inl ⟨hab.1.symm, hab.2.symm⟩
    · rw [vlookup2_assign2_ne _ _ _ _ _ _ hab] at hx
      exact hwe a b x hx

theorem remove_edge_ok_elim {g : Digraph} {u v : Nat} {r : Option Edge}
    {g' : Digraph} (h : Digraph.remove_edge g u v = .ok (r, g')) :
    g.contains u = true ∧ g.contains v = true ∧
    ((vlookup2 g.outgoing u v = none ∧ r = none ∧ g' = g) ∨
     (∃ e, vlookup2 g.outgoing u v = some e ∧ r = some e ∧
           g' = ⟨pop2 g.outgoing u v, pop2 g.incoming v u⟩)) := by
  by_cases hcu : g.contains u = true
  · by_cases hcv : g.contains v = true
    · have hedge : Digraph.edge g u v = .ok (vlookup2 g.outgoing u v) := by
        rw [Digraph.edge]
        simp [hcu, hcv]
      rw [Digraph.remove_edge] at h
      simp only [hedge, exceptBind_ok] at h
      refine ⟨hcu, hcv, ?_⟩
      cases hvl : vlookup2 g.outgoing u v with
      | none =>
        rw [hvl] at h
        simp only [exceptPure_eq_ok, Except.ok.injEq, Prod.mk.injEq] at h
        exact Or.inl ⟨rfl, h.1.symm, h.2.symm⟩
      | some e =>
        rw [hvl] at h
        simp only [exceptPure_eq_ok, Except.ok.injEq, Prod.mk.injEq] at h
        exact Or.inr ⟨e, rfl, h.1.symm, h.2.symm⟩
    · exfalso
      have hedge : Digraph.edge g u v = .error .notMember := by
        rw [Digraph.edge]
        simp [hcu, hcv]
      rw [Digraph.remove_edge] at h
      simp [hedge] at h
  · exfalso
    have hedge : Digraph.edge g u v = .error .notMember := by
      rw [Digraph.edge]
      simp [hcu]
    rw [Digraph.remove_edge] at h
    simp [hedge] at h

theorem remove_edge_none_eq {g : Digraph} {u v : Nat}
    (hcu : g.contains u = true) (hcv : g.contains v = true)
    (hvl : vlookup2 g.outgoing u v = none) :
    Digraph.remove_edge g u v = .ok (none, g) := by
  have hedge : Digraph.edge g u v = .ok (vlookup2 g.outgoing u v) := by
    rw [Digraph.edge]
    simp [hcu, hcv]
  rw [Digraph.remove_edge]
  simp [hedge, hvl]

theorem remove_edge_some_eq {g : Digraph} {u v : Nat} {e : Edge}
    (hcu : g.contains u = true) (hcv : g.contains v = true)
    (hvl : vlookup2 g.outgoing u v = some e) :
    Digraph.remove_edge g u v =
      .ok (some e, ⟨pop2 g.outgoing u v, pop2 g.incoming v u⟩) := by
  have hedge : Digraph.edge g u v = .ok (vlookup2 g.outgoing u v) := by
    rw [Digraph.edge]
    simp [hcu, hcv]
  rw [Digraph.remove_edge]
  simp [hedge, hvl]

theorem dinv_remove_edge {g : Digraph} {u v : Nat} {r : Option Edge}
    {g' : Digraph} (hinv : DInv g)
    (h : Digraph.remove_edge g u v = .ok (r, g')) :
    DInv g' ∧ akeys g'.outgoing = akeys g.outgoing ∧
    akeys g'.incoming = akeys g.incoming ∧
    vlookup2 g'.outgoing u v = none ∧
    (∀ a b, vlookup2 g'.outgoing a b = vlookup2 g.outgoing a b ∨
            vlookup2 g'.outgoing a b = none) := by
  obtain ⟨hcu, hcv, hcase⟩ := remove_edge_ok_elim h
  obtain ⟨hkeys, hsym, ⟨hwo, hwi⟩, hwe⟩ := hinv
  rcases hcase with ⟨hvl, hr, hg⟩ | ⟨e, hvl, hr, hg⟩
  · subst hg
    exact ⟨⟨hkeys, hsym, ⟨hwo, hwi⟩, hwe⟩, rfl, rfl, hvl, fun a b => Or.inl rfl⟩
  · subst hg
    have hu : u ∈ akeys g.outgoing := (Digraph.contains_iff g u).mp hcu
    have hv : v ∈ akeys g.incoming := hkeys ▸ (Digraph.contains_iff g v).mp hcv
    have hko : akeys (pop2 g.outgoing u v) = akeys g.outgoing :=
      akeys_aset_of_mem _ hu
    have hki : akeys (pop2 g.incoming v u) = akeys g.incoming :=
      akeys_aset_of_mem _ hv
    refine ⟨⟨?_, ?_, ⟨wfKeys_pop2 _ _ hwo, wfKeys_pop2 _ _ hwi⟩, ?_⟩,
            hko, hki, vlookup2_pop2_self _ _ _, ?_⟩
    · show akeys (pop2 g.outgoing u v) = akeys (pop2 g.incoming v u)
      rw [hko, hki, hkeys]
    · intro a b
      show vlookup2 (pop2 g.outgoing u v) a b = vlookup2 (pop2 g.incoming v u) b a
      by_cases hab : a = u ∧ b = v
      · rw [hab.1, hab.2, vlookup2_pop2_self, vlookup2_pop2_self]
      · have hba : ¬(b = v ∧ a = u) := fun hc => hab ⟨hc.2, hc.1⟩
        rw [vlookup2_pop2_ne _ _ _ _ _ hab, vlookup2_pop2_ne _ _ _ _ _ hba]
        exact hsym a b
    · intro a b x hx
      show (x.head = a ∧ x.tail = b) ∨ (x.head = b ∧ x.tail = a)
      by_cases hab : a = u ∧ b = v
      · rw [hab.1, hab.2, vlookup2_pop2_self] at hx
        cases hx
      · rw [show (⟨pop2 g.outgoing u v, pop2 g.incoming v u⟩ : Digraph).outgoing
              = pop2 g.outgoing u v from rfl,
            vlookup2_pop2_ne _ _ _ _ _ hab] at hx
        exact hwe a b x hx
    · intro a b
      by_cases hab : a = u ∧ b = v
      · rw [hab.1, hab.2]
        exact Or.inr (vlookup2_pop2_self _ _ _)
      · exact Or.inl (vlookup2_pop2_ne _ _ _ _ _ hab)

theorem dinv_reverse {g : Digraph} (hinv : DInv g) :
    DInv (Digraph.reverse g) := by
  obtain ⟨hkeys, hsym, ⟨hwo, hwi⟩, hwe⟩ := hinv
  refine ⟨hkeys.symm, fun u v => (hsym v u).symm, ⟨hwi, hwo⟩, ?_⟩
  intro a b x hx
  have hx' : vlookup2 g.outgoing b a = some x := by
    rw [hsym b a]
    exact hx
  rcases hwe b a x hx' with h | h
  · exact Or.inr ⟨h.1, h.2⟩
  · exact Or.inl ⟨h.1, h.2⟩

theorem vlookup2_aerase_outer (m : VMap (VMap Edge)) (v a b : Nat) :
    vlookup2 (aerase m v) a b = if a = v then none else vlookup2 m a b := by
  by_cases h : a = v
  · subst h
    unfold vlookup2
    rw [alookup_aerase_self]
    simp
  · unfold vlookup2
    rw [alookup_aerase_ne _ _ _ (fun hh => h hh.symm), if_neg h]

theorem dinv_inner_mem {g : Digraph} (hinv : DInv g) {a b : Nat} {e : Edge}
    (h : vlookup2 g.outgoing a b = some e) :
    a ∈ akeys g.outgoing ∧ b ∈ akeys g.outgoing := by
  constructor
  · unfold vlookup2 at h
    cases hl : alookup g.outgoing a with
    | none => rw [hl] at h; cases h
    | some M => exact mem_akeys_of_alookup hl
  · have h2 : vlookup2 g.incoming b a = some e := by
      rw [← hinv.2.1 a b]
      exact h
    unfold vlookup2 at h2
    cases hl : alookup g.incoming b with
    | none => rw [hl] at h2; cases h2
    | some M => exact hinv.1 ▸ mem_akeys_of_alookup hl

/-- The edge-stripping loop of `remove_vertex`, generic in the dispatched
`remove_edge` (`rem`) and in the invariant `P` it preserves. -/
theorem removeVertexWith_loop
    (rem : Digraph → Nat → Nat → Except GErr (Option Edge × Digraph))
    (P : Digraph → Prop) (v : Nat)
    (hstep : ∀ gi u w r g', P gi → rem gi u w = .ok (r, g') →
        P g' ∧ akeys g'.outgoing = akeys gi.outgoing ∧
        akeys g'.incoming = akeys gi.incoming ∧
        vlookup2 g'.outgoing u w = none ∧
        (∀ a b, vlookup2 g'.outgoing a b = vlookup2 gi.outgoing a b ∨
                vlookup2 g'.outgoing a b = none))
    (hok : ∀ gi u w, P gi → gi.contains u = true → gi.contains w = true →
        ∃ r g', rem gi u w = .ok (r, g')) :
    ∀ (ks : List Nat) (g0 : Digraph), P g0 →
      (∀ u ∈ ks, u ∈ akeys g0.outgoing) → v ∈ akeys g0.outgoing →
      ∃ g1, (ks.foldlM (fun gi u => do
                let (_, gi) ← rem gi u v
                let (_, gi) ← rem gi v u
                pure gi) g0) = .ok g1 ∧
        P g1 ∧ akeys g1.outgoing = akeys g0.outgoing ∧
        akeys g1.incoming = akeys g0.incoming ∧
        (∀ a b, vlookup2 g0.outgoing a b = none →
                vlookup2 g1.outgoing a b = none) ∧
        (∀ u ∈ ks, vlookup2 g1.outgoing u v = none ∧
                   vlookup2 g1.outgoing v u = none) := by
  intro ks
  induction ks with
  | nil =>
    intro g0 hP _ _
    exact ⟨g0, rfl, hP, rfl, rfl, fun a b h => h, fun u hu => absurd hu (by simp)⟩
  | cons u ks ih =>
    intro g0 hP hks hv
    have hcu : g0.contains u = true :=
      (Digraph.contains_iff g0 u).mpr (hks u (List.mem_cons_self _ _))
    have hcv : g0.contains v = true := (Digraph.contains_iff g0 v).mpr hv
    obtain ⟨r1, gA, h1⟩ := hok g0 u v hP hcu hcv
    obtain ⟨hPA, hkoA, hkiA, hnA, hEA⟩ := hstep g0 u v r1 gA hP h1
    have hcuA : gA.contains u = true := by
      rw [Digraph.contains_iff, hkoA]
      exact hks u (List.mem_cons_self _ _)
    have hcvA : gA.contains v = true := by
      rw [Digraph.contains_iff, hkoA]
      exact hv
    obtain ⟨r2, gB, h2⟩ := hok gA v u hPA hcvA hcuA
    obtain ⟨hPB, hkoB, hkiB, hnB, hEB⟩ := hstep gA v u r2 gB hPA h2
    have hnB' : vlookup2 gB.outgoing u v = none := by
      rcases hEB u v with h | h
      · rw [h]; exact hnA
      · exact h
    obtain ⟨g1, hfold, hP1, hko1, hki1, hpers, hdone⟩ :=
      ih gB hPB (by rw [hkoB, hkoA]; exact fun w hw => hks w (List.mem_cons_of_mem _ hw))
        (by rw [hkoB, hkoA]; exact hv)
    refine ⟨g1, ?_, hP1, by rw [hko1, hkoB, hkoA],
            by rw [hki1, hkiB, hkiA], ?_, ?_⟩
    · rw [List.foldlM_cons]
      have hbody : (do
          let (_, gi) ← rem g0 u v
          let (_, gi) ← rem gi v u
          pure gi) = Except.ok gB := by
        rw [h1]
        simp only [exceptBind_ok]
        rw [h2]
        simp only [exceptBind_ok, exceptPure_eq_ok]
      rw [hbody]
      simp only [exceptBind_ok]
      exact hfold
    · intro a b hab
      apply hpers
      have habA : vlookup2 gA.outgoing a b = none := by
        rcases hEA a b with h | h
        · rw [h]; exact hab
        · exact h
      rcases hEB a b with h | h
      · rw [h]; exact habA
      · exact h
    · intro w hw
      rcases List.mem_cons.mp hw with hw | hw
      · subst hw
        exact ⟨hpers _ _ hnB', hpers _ _ hnB⟩
      · exact hdone w hw

theorem dinv_remove_edge_step :
    ∀ gi u w r g', DInv gi → Digraph.remove_edge gi u w = .ok (r, g') →
      DInv g' ∧ akeys g'.outgoing = akeys gi.outgoing ∧
      akeys g'.incoming = akeys gi.incoming ∧
      vlookup2 g'.outgoing u w = none ∧
      (∀ a b, vlookup2 g'.outgoing a b = vlookup2 gi.outgoing a b ∨
              vlookup2 g'.outgoing a b = none) := by
  intro gi u w r g' hP h
  exact dinv_remove_edge hP h

theorem dinv_remove_edge_ok :
    ∀ gi u w, DInv gi → gi.contains u = true → gi.contains w = true →
      ∃ r g', Digraph.remove_edge gi u w = .ok (r, g') := by
  intro gi u w _ hcu hcw
  cases hvl : vlookup2 gi.outgoing u w with
  | none => exact ⟨none, gi, remove_edge_none_eq hcu hcw hvl⟩
  | some e =>
    exact ⟨some e, ⟨pop2 gi.outgoing u w, pop2 gi.incoming w u⟩,
           remove_edge_some_eq hcu hcw hvl⟩

theorem dinv_remove_vertex {g : Digraph} {v : Nat} {g' : Digraph}
    (hinv : DInv g) (h : Digraph.remove_vertex g v = .ok g') :
    DInv g' ∧
    akeys g'.outgoing = (akeys g.outgoing).filter (fun x => x ≠ v) ∧
    akeys g'.incoming = (akeys g.incoming).filter (fun x => x ≠ v) ∧
    (∀ a b, (a = v ∨ b = v) →
        vlookup2 g'.outgoing a b = none ∧ vlookup2 g'.incoming a b = none) := by
  rw [Digraph.remove_vertex, removeVertexWith] at h
  by_cases hc : g.contains v = true
  · simp only [hc, not_true_eq_false, if_false] at h
    have hv : v ∈ akeys g.outgoing := (Digraph.contains_iff g v).mp hc
    obtain ⟨g1, hfold, hP1, hko1, hki1, hpers, hdone⟩ :=
      removeVertexWith_loop Digraph.remove_edge DInv v
        dinv_remove_edge_step dinv_remove_edge_ok
        (akeys g.outgoing) g hinv (fun u hu => hu) hv
    rw [show g.vertices = akeys g.outgoing from rfl, hfold] at h
    simp only [exceptBind_ok, exceptPure_eq_ok, Except.ok.injEq] at h
    have hout' : g'.outgoing = aerase g1.outgoing v := by rw [← h]
    have hinc' : g'.incoming = aerase g1.incoming v := by rw [← h]
    -- edges touching v are all gone from g1
    have hgone : ∀ a b, (a = v ∨ b = v) → vlookup2 g1.outgoing a b = none := by
      intro a b hab
      by_cases hmem : (a ∈ akeys g1.outgoing ∧ b ∈ akeys g1.outgoing)
      · rcases hab with rfl | rfl
        · exact (hdone b (hko1 ▸ hmem.2)).2
        · exact (hdone a (hko1 ▸ hmem.1)).1
      · cases hvl : vlookup2 g1.outgoing a b with
        | none => rfl
        | some e => exact absurd (dinv_inner_mem hP1 hvl) hmem
    have hsym1 := hP1.2.1
    have hkeys1 := hP1.1
    have houtgone : ∀ a b, (a = v ∨ b = v) → vlookup2 g'.outgoing a b = none := by
      intro a b hab
      rw [hout', vlookup2_aerase_outer]
      by_cases ha : a = v
      · simp [ha]
      · rw [if_neg ha]
        exact hgone a b hab
    have hincgone : ∀ a b, (a = v ∨ b = v) → vlookup2 g'.incoming a b = none := by
      intro a b hab
      rw [hinc']
      rw [vlookup2_aerase_outer]
      by_cases ha : a = v
      · simp [ha]
      · rw [if_neg ha, ← hsym1 b a]
        exact hgone b a (hab.symm.imp id id)
    refine ⟨⟨?_, ?_, ⟨?_, ?_⟩, ?_⟩, ?_, ?_, fun a b hab => ⟨houtgone a b hab, hincgone a b hab⟩⟩
    · rw [hout', hinc', akeys_aerase, akeys_aerase, hkeys1]
    · intro a b
      by_cases hbv : a = v ∨ b = v
      · rw [houtgone a b hbv, hincgone b a (hbv.symm.imp id id)]
      · push_neg at hbv
        rw [hout', hinc', vlookup2_aerase_outer, vlookup2_aerase_outer,
            if_neg hbv.1, if_neg hbv.2]
        exact hsym1 a b
    · rw [hout']
      exact wfKeys_aerase hP1.2.2.1.1
    · rw [hinc']
      exact wfKeys_aerase hP1.2.2.1.2
    · intro a b x hx
      rw [hout', vlookup2_aerase_outer] at hx
      by_cases ha : a = v
      · rw [if_pos ha] at hx; cases hx
      · rw [if_neg ha] at hx
        exact hP1.2.2.2 a b x hx
    · rw [hout', akeys_aerase, hko1]
    · rw [hinc', akeys_aerase, hki1]
  · simp only [hc, not_false_eq_true, if_true] at h
    cases h

theorem dinv_dstep {g g' : Digraph} {op : DOp} (hinv : DInv g)
    (h : dstep g op = .ok g') : DInv g' := by
  cases op with
  | insV w =>
    simp only [dstep, Except.ok.injEq] at h
    exact h ▸ dinv_insert_vertex hinv w
  | insE e =>
    simp only [dstep, Except.ok.injEq] at h
    exact h ▸ dinv_insert_edge hinv e
  | remE u w =>
    simp only [dstep] at h
    cases hre : Digraph.remove_edge g u w with
    | error err => rw [hre] at h; cases h
    | ok p =>
      rw [hre] at h
      cases h
      exact (dinv_remove_edge hinv (by rw [hre])).1
  | remV w =>
    simp only [dstep] at h
    exact (dinv_remove_vertex hinv h).1
  | rev =>
    simp only [dstep, Except.ok.injEq] at h
    exact h ▸ dinv_reverse hinv

theorem dinv_foldlM : ∀ (ops : List DOp) (g0 g : Digraph), DInv g0 →
    List.foldlM dstep g0 ops = .ok g → DInv g := by
  intro ops
  induction ops with
  | nil =>
    intro g0 g h0 h
    cases h
    exact h0
  | cons op ops ih =>
    intro g0 g h0 h
    rw [List.foldlM_cons] at h
    cases hs : dstep g0 op with
    | error err => rw [hs] at h; cases h
    | ok g1 =>
      rw [hs] at h
      simp only [exceptBind_ok] at h
      exact ih g1 g (dinv_dstep h0 hs) h

/-- Every graph reachable by public `Digraph` operations from the empty
graph satisfies the consistency invariant. -/
theorem dinv_of_drun (ops : List DOp) {g : Digraph} (h : drun ops = .ok g) :
    DInv g :=
  dinv_foldlM ops Digraph.empty g dinv_empty h

/-! ## C3: adjacency-map consistency of reachable Digraphs -/

/-- C3: in every `Digraph` built from empty by the public operations,
`v ∈ outgoing[u]` iff `u ∈ incoming[v]` iff the edge u→v exists, and the
outgoing and incoming maps have the same vertex set. -/
theorem c3_adjacency_consistency (ops : List DOp) (g : Digraph)
    (h : drun ops = .ok g) :
    (∀ w, w ∈ akeys g.outgoing ↔ w ∈ akeys g.incoming) ∧
    (∀ u v, ((∃ m, alookup g.outgoing u = some m ∧ v ∈ akeys m) ↔
             (∃ m, alookup g.incoming v = some m ∧ u ∈ akeys m)) ∧
            ((∃ m, alookup g.outgoing u = some m ∧ v ∈ akeys m) ↔
             (vlookup2 g.outgoing u v).isSome)) := by
  have hinv := dinv_of_drun ops h
  refine ⟨fun w => by rw [hinv.1], ?_⟩
  intro u v
  have hmid : (vlookup2 g.outgoing u v).isSome ↔
      (vlookup2 g.incoming v u).isSome := by
    rw [hinv.2.1 u v]
  exact ⟨((vlookup2_isSome_iff _ u v).symm.trans hmid).trans
           (vlookup2_isSome_iff _ v u),
         (vlookup2_isSome_iff _ u v).symm⟩

/-- Concrete run exercising all five public operations. -/
def opsW3 : List DOp :=
  [DOp.insE ⟨0, 1, "ab", 1⟩, DOp.insV 2, DOp.rev, DOp.remE 1 0, DOp.remV 2]

/-- The graph `opsW3` reaches. -/
def gW3 : Digraph :=
  match drun opsW3 with
  | .ok g => g
  | .error _ => Digraph.empty

theorem c3_adjacency_consistency_witness :
    (∀ w, w ∈ akeys gW3.outgoing ↔ w ∈ akeys gW3.incoming) ∧
    (∀ u v, ((∃ m, alookup gW3.outgoing u = some m ∧ v ∈ akeys m) ↔
             (∃ m, alookup gW3.incoming v = some m ∧ u ∈ akeys m)) ∧
            ((∃ m, alookup gW3.outgoing u = some m ∧ v ∈ akeys m) ↔
             (vlookup2 gW3.outgoing u v).isSome)) :=
  c3_adjacency_consistency opsW3 gW3 (by rfl)

/-! ## C4: `remove_vertex` leaves no trace of the vertex -/

theorem remove_vertex_ok {g : Digraph} {v : Nat} (hinv : DInv g)
    (hc : g.contains v = true) :
    ∃ g', Digraph.remove_vertex g v = .ok g' := by
  rw [Digraph.remove_vertex, removeVertexWith]
  simp only [hc, not_true_eq_false, if_false]
  obtain ⟨g1, hfold, _⟩ :=
    removeVertexWith_loop Digraph.remove_edge DInv v
      dinv_remove_edge_step dinv_remove_edge_ok
      (akeys g.outgoing) g hinv (fun u hu => hu)
      ((Digraph.contains_iff g v).mp hc)
  rw [show g.vertices = akeys g.outgoing from rfl, hfold]
  exact ⟨_, rfl⟩

/-- C4: after `remove_vertex(v)` on a consistent graph with member `v`,
`v` is no longer a member, every membership-validated query on `v` fails
with the not-a-member error, and no adjacency map still holds `v` as a
key or an edge incident to `v`. -/
theorem c4_remove_vertex_detaches (g : Digraph) (v : Nat)
    (hinv : DInv g) (hmem : g.contains v = true) :
    ∃ g', Digraph.remove_vertex g v = .ok g' ∧
      g'.contains v = false ∧
      (∀ w, Digraph.edge g' v w = .error .notMember ∧
            Digraph.edge g' w v = .error .notMember) ∧
      Digraph.successors g' v = .error .notMember ∧
      Digraph.predecessors g' v = .error .notMember ∧
      Digraph.out_degree g' v = .error .notMember ∧
      Digraph.in_degree g' v = .error .notMember ∧
      v ∉ akeys g'.outgoing ∧ v ∉ akeys g'.incoming ∧
      (∀ u, vlookup2 g'.outgoing u v = none ∧ vlookup2 g'.outgoing v u = none ∧
            vlookup2 g'.incoming u v = none ∧ vlookup2 g'.incoming v u = none) ∧
      (∀ a b e, vlookup2 g'.outgoing a b = some e → e.head ≠ v ∧ e.tail ≠ v) ∧
      (∀ a b e, vlookup2 g'.incoming a b = some e → e.head ≠ v ∧ e.tail ≠ v) := by
  obtain ⟨g', hok⟩ := remove_vertex_ok hinv hmem
  obtain ⟨hinv', hko, hki, hgone⟩ := dinv_remove_vertex hinv hok
  have hvout : v ∉ akeys g'.outgoing := by
    rw [hko]
    simp [List.mem_filter]
  have hvinc : v ∉ akeys g'.incoming := by
    rw [hki]
    simp [List.mem_filter]
  have hcf : g'.contains v = false := (Digraph.contains_eq_false_iff g' v).mpr hvout
  have hcf' : ¬ g'.contains v = true := by rw [hcf]; exact Bool.false_ne_true
  have hedgeout : ∀ a b e, vlookup2 g'.outgoing a b = some e →
      e.head ≠ v ∧ e.tail ≠ v := by
    intro a b e he
    have hav : a ≠ v := by
      intro h2
      rw [(hgone a b (Or.inl h2)).1] at he
      cases he
    have hbv : b ≠ v := by
      intro h2
      rw [(hgone a b (Or.inr h2)).1] at he
      cases he
    rcases hinv'.2.2.2 a b e he with h2 | h2
    · exact ⟨h2.1 ▸ hav, h2.2 ▸ hbv⟩
    · exact ⟨h2.1 ▸ hbv, h2.2 ▸ hav⟩
  refine ⟨g', hok, hcf, ?_, ?_, ?_, ?_, ?_, hvout, hvinc, ?_, hedgeout, ?_⟩
  · intro w
    constructor
    · rw [Digraph.edge]
      simp [hcf']
    · rw [Digraph.edge]
      by_cases hw : g'.contains w = true <;> simp [hw, hcf']
  · rw [Digraph.successors]; simp [hcf']
  · rw [Digraph.predecessors]; simp [hcf']
  · rw [Digraph.out_degree, Digraph.successors]; simp [hcf']; rfl
  · rw [Digraph.in_degree, Digraph.predecessors]; simp [hcf']; rfl
  · intro u
    exact ⟨(hgone u v (Or.inr rfl)).1, (hgone v u (Or.inl rfl)).1,
           (hgone u v (Or.inr rfl)).2, (hgone v u (Or.inl rfl)).2⟩
  · intro a b e he
    have he' : vlookup2 g'.outgoing b a = some e := by
      rw [hinv'.2.1 b a]
      exact he
    exact hedgeout b a e he'

/-- Concrete reachable graph for the C4 witness. -/
def opsW4 : List DOp := [DOp.insE ⟨0, 1, "ab", 1⟩, DOp.insE ⟨1, 2, "bc", 1⟩]

/-- The graph `opsW4` reaches. -/
def gW4 : Digraph :=
  match drun opsW4 with
  | .ok g => g
  | .error _ => Digraph.empty

theorem c4_remove_vertex_detaches_witness :
    ∃ g', Digraph.remove_vertex gW4 1 = .ok g' ∧
      g'.contains 1 = false ∧
      (∀ w, Digraph.edge g' 1 w = .error .notMember ∧
            Digraph.edge g' w 1 = .error .notMember) ∧
      Digraph.successors g' 1 = .error .notMember ∧
      Digraph.predecessors g' 1 = .error .notMember ∧
      Digraph.out_degree g' 1 = .error .notMember ∧
      Digraph.in_degree g' 1 = .error .notMember ∧
      1 ∉ akeys g'.outgoing ∧ 1 ∉ akeys g'.incoming ∧
      (∀ u, vlookup2 g'.outgoing u 1 = none ∧ vlookup2 g'.outgoing 1 u = none ∧
            vlookup2 g'.incoming u 1 = none ∧ vlookup2 g'.incoming 1 u = none) ∧
      (∀ a b e, vlookup2 g'.outgoing a b = some e → e.head ≠ 1 ∧ e.tail ≠ 1) ∧
      (∀ a b e, vlookup2 g'.incoming a b = some e → e.head ≠ 1 ∧ e.tail ≠ 1) :=
  c4_remove_vertex_detaches gW4 1 (dinv_of_drun opsW4 (by rfl)) (by decide)

/-- Concrete reachable graph for the C5 witness. -/
def gW5 : Digraph := (Digraph.insert_edge Digraph.empty ⟨0, 1, "ab", 1⟩).2

theorem c5_remove_edge_contract_witness :
    Digraph.remove_edge gW5 0 1 =
      .ok (some ⟨0, 1, "ab", 1⟩,
           ⟨pop2 gW5.outgoing 0 1, pop2 gW5.incoming 1 0⟩) :=
  (((c5_remove_edge_contract gW5 0 1).2.2.2) ⟨0, 1, "ab", 1⟩
    (by decide) (by decide) (by decide)).1

/-- Concrete reachable graph for the C6 witness. -/
def opsW6 : List DOp := [DOp.insE ⟨0, 1, "ab", 1⟩, DOp.insE ⟨2, 0, "ca", 1⟩]

/-- The graph `opsW6` reaches. -/
def gW6 : Digraph :=
  match drun opsW6 with
  | .ok g => g
  | .error _ => Digraph.empty

theorem c6_reverse_involution_witness :
    Digraph.reverse (Digraph.reverse gW6) = gW6 ∧
    Digraph.successors (Digraph.reverse gW6) 0 = Digraph.predecessors gW6 0 ∧
    Digraph.edge (Digraph.reverse gW6) 1 0 = Digraph.edge gW6 0 1 :=
  ⟨(c6_reverse_involution gW6).1,
   ((c6_reverse_involution gW6).2.2.2 (dinv_of_drun opsW6 (by rfl)) 0 1).1,
   ((c6_reverse_involution gW6).2.2.2 (dinv_of_drun opsW6 (by rfl)) 1 0).2.2.2.2⟩

/-! ## Preservation of the undirected-Graph invariant -/

theorem ginv_empty : GInv Digraph.empty :=
  ⟨rfl, fun u v => rfl⟩

theorem ginv_insert_vertex {g : Digraph} (hinv : GInv g) (v : Nat) :
    GInv (g.insert_vertex v).2 := by
  obtain ⟨heq, hsym⟩ := hinv
  unfold Digraph.insert_vertex
  by_cases h : g.contains v = true
  · simpa [h] using ⟨heq, hsym⟩
  · have hvo : v ∉ akeys g.outgoing := contains_eq_false_elim h
    simp only [h, Bool.false_eq_true, if_false]
    refine ⟨by rw [show (⟨aset g.outgoing v [], aset g.incoming v []⟩ : Digraph).incoming
                     = aset g.incoming v [] from rfl, heq], ?_⟩
    intro a b
    show vlookup2 (aset g.outgoing v []) a b = vlookup2 (aset g.outgoing v []) b a
    rw [vlookup2_aset_fresh _ _ hvo, vlookup2_aset_fresh _ _ hvo]
    exact hsym a b

theorem ginv_autoInsert {g : Digraph} (hinv : GInv g) (e : Edge) :
    GInv (Digraph.autoInsert g e) := by
  rw [autoInsert_eq]
  exact ginv_insert_vertex (ginv_insert_vertex hinv e.head) e.tail

/-- Unconditional lookup characterization of `Graph.insert_edge`: both
directed entries hold the inserted edge, all other entries are untouched. -/
theorem graph_insert_edge_char (g : Digraph) (e : Edge) :
    vlookup2 ((Graph.insert_edge g e).2).outgoing e.head e.tail = some e ∧
    vlookup2 ((Graph.insert_edge g e).2).outgoing e.tail e.head = some e ∧
    (∀ a b, ¬(a = e.head ∧ b = e.tail) → ¬(a = e.tail ∧ b = e.head) →
       vlookup2 ((Graph.insert_edge g e).2).outgoing a b =
         vlookup2 g.outgoing a b) := by
  have hout : ((Graph.insert_edge g e).2).outgoing =
      assign2 (assign2 (Digraph.autoInsert g e).outgoing e.head e.tail e)
        e.tail e.head e := rfl
  refine ⟨?_, ?_, ?_⟩
  · rw [hout]
    by_cases hht : e.head = e.tail
    · rw [hht, vlookup2_assign2_self]
    · rw [vlookup2_assign2_ne _ _ _ _ _ _ (fun hc => hht hc.1),
          vlookup2_assign2_self]
  · rw [hout, vlookup2_assign2_self]
  · intro a b h1 h2
    rw [hout, vlookup2_assign2_ne _ _ _ _ _ _ h2,
        vlookup2_assign2_ne _ _ _ _ _ _ h1, vlookup2_autoInsert_out]

theorem ginv_graph_insert_edge {g : Digraph} (hinv : GInv g) (e : Edge) :
    GInv (Graph.insert_edge g e).2 := by
  have hgm := ginv_autoInsert hinv e
  obtain ⟨heq, hsym⟩ := hgm
  have hheado : e.head ∈ akeys (Digraph.autoInsert g e).outgoing :=
    (Digraph.contains_iff _ _).mp (contains_autoInsert_head g e)
  have htailo : e.tail ∈ akeys (Digraph.autoInsert g e).outgoing :=
    (Digraph.contains_iff _ _).mp (contains_autoInsert_tail g e)
  constructor
  · -- the four assignments leave the two maps literally equal
    show assign2 (assign2 (Digraph.autoInsert g e).incoming e.tail e.head e)
          e.head e.tail e =
        assign2 (assign2 (Digraph.autoInsert g e).outgoing e.head e.tail e)
          e.tail e.head e
    rw [heq]
    by_cases hht : e.head = e.tail
    · rw [hht]
    · unfold assign2
      have hg1 : agetD (aset (Digraph.autoInsert g e).outgoing e.head
          (aset (agetD (Digraph.autoInsert g e).outgoing e.head []) e.tail e))
          e.tail [] = agetD (Digraph.autoInsert g e).outgoing e.tail [] := by
        unfold agetD
        rw [alookup_aset_ne _ _ _ _ hht]
      have hg2 : agetD (aset (Digraph.autoInsert g e).outgoing e.tail
          (aset (agetD (Digraph.autoInsert g e).outgoing e.tail []) e.head e))
          e.head [] = agetD (Digraph.autoInsert g e).outgoing e.head [] := by
        unfold agetD
        rw [alookup_aset_ne _ _ _ _ (fun hh => hht hh.symm)]
      rw [hg1, hg2]
      exact (aset_comm _ e.head e.tail _ _ hht hheado htailo).symm
  · intro a b
    rcases graph_insert_edge_char g e with ⟨hself1, hself2, hne⟩
    by_cases h1 : a = e.head ∧ b = e.tail
    · rw [h1.1, h1.2, hself1, hself2]
    · by_cases h2 : a = e.tail ∧ b = e.head
      · rw [h2.1, h2.2, hself2, hself1]
      · have h1' : ¬(b = e.head ∧ a = e.tail) := fun hc => h2 ⟨hc.2, hc.1⟩
        have h2' : ¬(b = e.tail ∧ a = e.head) := fun hc => h1 ⟨hc.2, hc.1⟩
        rw [hne a b h1 h2, hne b a h1' h2']
        exact hinv.2 a b

theorem dig_out (o i : VMap (VMap Edge)) : (⟨o, i⟩ : Digraph).outgoing = o := rfl

theorem dig_inc (o i : VMap (VMap Edge)) : (⟨o, i⟩ : Digraph).incoming = i := rfl

theorem akeys_pop2_of_mem (m : VMap (VMap Edge)) (u v : Nat)
    (h : u ∈ akeys m) : akeys (pop2 m u v) = akeys m :=
  akeys_aset_of_mem _ h

theorem akeys_assign2_of_mem (m : VMap (VMap Edge)) (u v : Nat) (e : Edge)
    (h : u ∈ akeys m) : akeys (assign2 m u v e) = akeys m :=
  akeys_aset_of_mem _ h

/-- After a successful `Graph.remove_edge(u, v)`, neither directed entry
remains (unconditionally). -/
theorem graph_remove_edge_clears {g : Digraph} {u v : Nat} {r : Option Edge}
    {g' : Digraph} (h : Graph.remove_edge g u v = .ok (r, g')) :
    vlookup2 g'.outgoing u v = none ∧ vlookup2 g'.outgoing v u = none := by
  rw [Graph.remove_edge] at h
  cases h1 : Digraph.remove_edge g u v with
  | error err => rw [h1] at h; cases h
  | ok p1 =>
    obtain ⟨r1, g1⟩ := p1
    rw [h1] at h
    simp only [exceptBind_ok] at h
    obtain ⟨_, _, hcase1⟩ := remove_edge_ok_elim h1
    obtain ⟨_, _, hcase2⟩ := remove_edge_ok_elim h
    have h1uv : vlookup2 g1.outgoing u v = none := by
      rcases hcase1 with ⟨hn, _, hg⟩ | ⟨e, hs, _, hg⟩
      · rw [hg]; exact hn
      · rw [hg]; exact vlookup2_pop2_self _ _ _
    rcases hcase2 with ⟨hn2, _, hg2⟩ | ⟨e2, hs2, _, hg2⟩
    · rw [hg2]
      exact ⟨h1uv, hn2⟩
    · rw [hg2]
      constructor
      · by_cases huv : u = v
        · rw [huv]
          exact vlookup2_pop2_self _ _ _
        · rw [show (⟨pop2 g1.outgoing v u, pop2 g1.incoming u v⟩ : Digraph).outgoing
                = pop2 g1.outgoing v u from rfl,
              vlookup2_pop2_ne _ _ _ _ _ (fun hc => huv hc.1)]
          exact h1uv
      · exact vlookup2_pop2_self _ _ _

theorem ginv_graph_remove_edge {g : Digraph} {u v : Nat} {r : Option Edge}
    {g' : Digraph} (hinv : GInv g)
    (h : Graph.remove_edge g u v = .ok (r, g')) :
    GInv g' ∧ akeys g'.outgoing = akeys g.outgoing ∧
    akeys g'.incoming = akeys g.incoming ∧
    vlookup2 g'.outgoing u v = none ∧
    (∀ a b, vlookup2 g'.outgoing a b = vlookup2 g.outgoing a b ∨
            vlookup2 g'.outgoing a b = none) := by
  obtain ⟨heq, hsym⟩ := hinv
  rw [Graph.remove_edge] at h
  cases h1 : Digraph.remove_edge g u v with
  | error err => rw [h1] at h; cases h
  | ok p1 =>
    obtain ⟨r1, g1⟩ := p1
    rw [h1] at h
    simp only [exceptBind_ok] at h
    obtain ⟨hcu, hcv, hcase1⟩ := remove_edge_ok_elim h1
    have huo : u ∈ akeys g.outgoing := (Digraph.contains_iff g u).mp hcu
    have hvo : v ∈ akeys g.outgoing := (Digraph.contains_iff g v).mp hcv
    obtain ⟨hcv1, hcu1, hcase2⟩ := remove_edge_ok_elim h
    rcases hcase1 with ⟨hn1, _, hg1⟩ | ⟨e1, hs1, _, hg1⟩
    · -- (u, v) absent, hence by symmetry (v, u) absent: both calls no-ops
      have hn1' : vlookup2 g.outgoing v u = none := by
        rw [hsym v u]; exact hn1
      rcases hcase2 with ⟨hn2, _, hg2⟩ | ⟨e2, hs2, _, hg2⟩
      · rw [hg2, hg1]
        exact ⟨⟨heq, hsym⟩, rfl, rfl, hn1, fun a b => Or.inl rfl⟩
      · rw [hg1, hn1'] at hs2
        cases hs2
    · -- (u, v) present, hence by symmetry (v, u) present (the same object)
      have hs1' : vlookup2 g.outgoing v u = some e1 := by
        rw [hsym v u]; exact hs1
      by_cases huv : u = v
      · -- self-loop: the second removal is a no-op
        subst huv
        have hg1none : vlookup2 g1.outgoing u u = none := by
          rw [hg1]
          exact vlookup2_pop2_self _ _ _
        rcases hcase2 with ⟨hn2, _, hg2⟩ | ⟨e2, hs2, _, hg2⟩
        · rw [hg2, hg1]
          have hGEq : pop2 g.incoming u u = pop2 g.outgoing u u := by rw [heq]
          refine ⟨⟨hGEq, ?_⟩, ?_, ?_, ?_, ?_⟩
          · intro a b
            show vlookup2 (pop2 g.outgoing u u) a b
                = vlookup2 (pop2 g.outgoing u u) b a
            by_cases hab : a = u ∧ b = u
            · rw [hab.1, hab.2]
            · have hba : ¬(b = u ∧ a = u) := fun hc => hab ⟨hc.2, hc.1⟩
              rw [vlookup2_pop2_ne _ _ _ _ _ hab, vlookup2_pop2_ne _ _ _ _ _ hba]
              exact hsym a b
          · exact akeys_aset_of_mem _ huo
          · exact akeys_aset_of_mem _ (heq ▸ huo)
          · exact vlookup2_pop2_self _ _ _
          · intro a b
            by_cases hab : a = u ∧ b = u
            · rw [hab.1, hab.2]
              exact Or.inr (vlookup2_pop2_self _ _ _)
            · exact Or.inl (vlookup2_pop2_ne _ _ _ _ _ hab)
        · rw [hg1none] at hs2
          cases hs2
      · -- distinct endpoints: the second call removes the mirrored entry
        have hg1vu : vlookup2 g1.outgoing v u = some e1 := by
          rw [hg1]
          show vlookup2 (pop2 g.outgoing u v) v u = some e1
          rw [vlookup2_pop2_ne _ _ _ _ _ (fun hc => huv hc.1.symm)]
          exact hs1'
        rcases hcase2 with ⟨hn2, _, hg2⟩ | ⟨e2, hs2, _, hg2⟩
        · rw [hg1vu] at hn2
          cases hn2
        · have hout2 : g'.outgoing = pop2 (pop2 g.outgoing u v) v u := by
            rw [hg2, hg1]
          have hinc2 : g'.incoming = pop2 (pop2 g.incoming v u) u v := by
            rw [hg2, hg1]
          have hGEq : pop2 (pop2 g.incoming v u) u v
              = pop2 (pop2 g.outgoing u v) v u := by
            rw [heq]
            unfold pop2
            have ha1 : agetD (aset g.outgoing u
                (aerase (agetD g.outgoing u []) v)) v [] =
                agetD g.outgoing v [] := by
              unfold agetD
              rw [alookup_aset_ne _ _ _ _ huv]
            have ha2 : agetD (aset g.outgoing v
                (aerase (agetD g.outgoing v []) u)) u [] =
                agetD g.outgoing u [] := by
              unfold agetD
              rw [alookup_aset_ne _ _ _ _ (fun hh => huv hh.symm)]
            rw [ha1, ha2]
            exact (aset_comm _ u v _ _ huv huo hvo).symm
          refine ⟨⟨?_, ?_⟩, ?_, ?_, ?_, ?_⟩
          · rw [hout2, hinc2, hGEq]
          · intro a b
            rw [hout2]
            by_cases h1' : a = u ∧ b = v
            · rw [h1'.1, h1'.2,
                  vlookup2_pop2_ne (pop2 g.outgoing u v) v u u v
                    (fun hc => huv hc.1),
                  vlookup2_pop2_self, vlookup2_pop2_self]
            · by_cases h2' : a = v ∧ b = u
              · rw [h2'.1, h2'.2, vlookup2_pop2_self,
                    vlookup2_pop2_ne (pop2 g.outgoing u v) v u u v
                      (fun hc => huv hc.1),
                    vlookup2_pop2_self]
              · rw [vlookup2_pop2_ne (pop2 g.outgoing u v) v u a b h2',
                    vlookup2_pop2_ne g.outgoing u v a b h1',
                    vlookup2_pop2_ne (pop2 g.outgoing u v) v u b a
                      (fun hc => h1' ⟨hc.2, hc.1⟩),
                    vlookup2_pop2_ne g.outgoing u v b a
                      (fun hc => h2' ⟨hc.2, hc.1⟩)]
                exact hsym a b
          · rw [hout2, akeys_pop2_of_mem _ v u
                  (by rw [akeys_pop2_of_mem _ u v huo]; exact hvo),
                akeys_pop2_of_mem _ u v huo]
          · have hui : u ∈ akeys g.incoming := heq ▸ huo
            have hvi : v ∈ akeys g.incoming := heq ▸ hvo
            rw [hinc2, akeys_pop2_of_mem _ u v
                  (by rw [akeys_pop2_of_mem _ v u hvi]; exact hui),
                akeys_pop2_of_mem _ v u hvi]
          · rw [hout2, vlookup2_pop2_ne (pop2 g.outgoing u v) v u u v
                  (fun hc => huv hc.1)]
            exact vlookup2_pop2_self _ _ _
          · intro a b
            rw [hout2]
            by_cases h1' : a = v ∧ b = u
            · rw [h1'.1, h1'.2]
              exact Or.inr (vlookup2_pop2_self _ _ _)
            · rw [vlookup2_pop2_ne (pop2 g.outgoing u v) v u a b h1']
              by_cases h2' : a = u ∧ b = v
              · rw [h2'.1, h2'.2]
                exact Or.inr (vlookup2_pop2_self _ _ _)
              · exact Or.inl (vlookup2_pop2_ne g.outgoing u v a b h2')

theorem remove_edge_ok_of_contains {gi : Digraph} {u w : Nat}
    (hcu : gi.contains u = true) (hcw : gi.contains w = true) :
    ∃ r g', Digraph.remove_edge gi u w = .ok (r, g') := by
  cases hvl : vlookup2 gi.outgoing u w with
  | none => exact ⟨none, gi, remove_edge_none_eq hcu hcw hvl⟩
  | some e =>
    exact ⟨some e, ⟨pop2 gi.outgoing u w, pop2 gi.incoming w u⟩,
           remove_edge_some_eq hcu hcw hvl⟩

theorem remove_edge_keys_out {g : Digraph} {u v : Nat} {r : Option Edge}
    {g' : Digraph} (h : Digraph.remove_edge g u v = .ok (r, g')) :
    akeys g'.outgoing = akeys g.outgoing := by
  obtain ⟨hcu, _, hcase⟩ := remove_edge_ok_elim h
  rcases hcase with ⟨_, _, hg⟩ | ⟨e, _, _, hg⟩
  · rw [hg]
  · rw [hg]
    exact akeys_aset_of_mem _ ((Digraph.contains_iff g u).mp hcu)

theorem graph_remove_edge_ok :
    ∀ gi u w, GInv gi → gi.contains u = true → gi.contains w = true →
      ∃ r g', Graph.remove_edge gi u w = .ok (r, g') := by
  intro gi u w _ hcu hcw
  obtain ⟨r1, g1, h1⟩ := remove_edge_ok_of_contains hcu hcw
  have hkeys1 : akeys g1.outgoing = akeys gi.outgoing := remove_edge_keys_out h1
  have hcw1 : g1.contains w = true := by
    rw [Digraph.contains_iff, hkeys1]
    exact (Digraph.contains_iff gi w).mp hcw
  have hcu1 : g1.contains u = true := by
    rw [Digraph.contains_iff, hkeys1]
    exact (Digraph.contains_iff gi u).mp hcu
  obtain ⟨r2, g2, h2⟩ := remove_edge_ok_of_contains hcw1 hcu1
  refine ⟨r2, g2, ?_⟩
  rw [Graph.remove_edge, h1]
  simp only [exceptBind_ok]
  exact h2

theorem ginv_remove_vertex {g : Digraph} {v : Nat} {g' : Digraph}
    (hinv : GInv g) (h : Graph.remove_vertex g v = .ok g') : GInv g' := by
  rw [Graph.remove_vertex, removeVertexWith] at h
  by_cases hc : g.contains v = true
  · simp only [hc, not_true_eq_false, if_false] at h
    have hv : v ∈ akeys g.outgoing := (Digraph.contains_iff g v).mp hc
    obtain ⟨g1, hfold, hP1, hko1, hki1, hpers, hdone⟩ :=
      removeVertexWith_loop Graph.remove_edge GInv v
        (fun gi u w r g'' hP hre => ginv_graph_remove_edge hP hre)
        graph_remove_edge_ok
        (akeys g.outgoing) g hinv (fun u hu => hu) hv
    rw [show g.vertices = akeys g.outgoing from rfl, hfold] at h
    simp only [exceptBind_ok, exceptPure_eq_ok, Except.ok.injEq] at h
    have hout' : g'.outgoing = aerase g1.outgoing v := by rw [← h]
    have hinc' : g'.incoming = aerase g1.incoming v := by rw [← h]
    obtain ⟨heq1, hsym1⟩ := hP1
    have hgone : ∀ a b, (a = v ∨ b = v) → vlookup2 g1.outgoing a b = none := by
      intro a b hab
      cases hvl : vlookup2 g1.outgoing a b with
      | none => rfl
      | some e =>
        exfalso
        have hamem : a ∈ akeys g1.outgoing := by
          unfold vlookup2 at hvl
          cases hla : alookup g1.outgoing a with
          | none => rw [hla] at hvl; cases hvl
          | some M => exact mem_akeys_of_alookup hla
        have hbmem : b ∈ akeys g1.outgoing := by
          have hvl' : vlookup2 g1.outgoing b a = some e := by
            rw [hsym1 b a]; exact hvl
          unfold vlookup2 at hvl'
          cases hlb : alookup g1.outgoing b with
          | none => rw [hlb] at hvl'; cases hvl'
          | some M => exact mem_akeys_of_alookup hlb
        rcases hab with rfl | rfl
        · rw [(hdone b (hko1 ▸ hbmem)).2] at hvl; cases hvl
        · rw [(hdone a (hko1 ▸ hamem)).1] at hvl; cases hvl
    refine ⟨?_, ?_⟩
    · rw [hout', hinc', heq1]
    · intro a b
      rw [hout', vlookup2_aerase_outer, vlookup2_aerase_outer]
      by_cases ha : a = v
      · rw [if_pos ha]
        by_cases hb : b = v
        · rw [if_pos hb]
        · rw [if_neg hb, hgone b a (Or.inr ha)]
      · rw [if_neg ha]
        by_cases hb : b = v
        · rw [if_pos hb, hgone a b (Or.inr hb)]
        · rw [if_neg hb]
          exact hsym1 a b
  · simp only [hc, not_false_eq_true, if_true] at h
    cases h

theorem ginv_gstep {g g' : Digraph} {op : GOp} (hinv : GInv g)
    (h : gstep g op = .ok g') : GInv g' := by
  cases op with
  | insV w =>
    simp only [gstep, Except.ok.injEq] at h
    exact h ▸ ginv_insert_vertex hinv w
  | insE e =>
    simp only [gstep, Except.ok.injEq] at h
    exact h ▸ ginv_graph_insert_edge hinv e
  | remE u w =>
    simp only [gstep] at h
    cases hre : Graph.remove_edge g u w with
    | error err => rw [hre] at h; cases h
    | ok p =>
      rw [hre] at h
      cases h
      exact (ginv_graph_remove_edge hinv (by rw [hre])).1
  | remV w =>
    simp only [gstep] at h
    exact ginv_remove_vertex hinv h

theorem ginv_foldlM : ∀ (ops : List GOp) (g0 g : Digraph), GInv g0 →
    List.foldlM gstep g0 ops = .ok g → GInv g := by
  intro ops
  induction ops with
  | nil =>
    intro g0 g h0 h
    cases h
    exact h0
  | cons op ops ih =>
    intro g0 g h0 h
    rw [List.foldlM_cons] at h
    cases hs : gstep g0 op with
    | error err => rw [hs] at h; cases h
    | ok g1 =>
      rw [hs] at h
      simp only [exceptBind_ok] at h
      exact ih g1 g (ginv_gstep h0 hs) h

/-- Every graph reachable by public `Graph` operations from the empty
graph satisfies the undirected invariant. -/
theorem ginv_of_grun (ops : List GOp) {g : Digraph} (h : grun ops = .ok g) :
    GInv g :=
  ginv_foldlM ops Digraph.empty g ginv_empty h

/-! ## C2: symmetry of the undirected Graph -/

/-- C2: on every undirected `Graph` built from empty by `Graph.insert_edge`
and `Graph.remove_edge` calls, every present `(u, v)` entry has the
symmetric `(v, u)` entry holding the very same edge object (hence the same
tag and distance); inserting an edge creates both directed entries, and a
successful `remove_edge(u, v)` leaves neither. -/
theorem c2_graph_symmetry (ops : List GOp) (g : Digraph)
    (hedge : ops.all GOp.edgeOnly = true) (h : grun ops = .ok g) :
    (∀ u v, vlookup2 g.outgoing u v = vlookup2 g.outgoing v u) ∧
    (∀ e, vlookup2 ((Graph.insert_edge g e).2).outgoing e.head e.tail = some e ∧
          vlookup2 ((Graph.insert_edge g e).2).outgoing e.tail e.head = some e) ∧
    (∀ u v r g', Graph.remove_edge g u v = .ok (r, g') →
          vlookup2 g'.outgoing u v = none ∧ vlookup2 g'.outgoing v u = none) := by
  have hinv := ginv_of_grun ops h
  refine ⟨hinv.2, ?_, ?_⟩
  · intro e
    exact ⟨(graph_insert_edge_char g e).1, (graph_insert_edge_char g e).2.1⟩
  · intro u v r g' hre
    exact graph_remove_edge_clears hre

/-- Concrete undirected run for the C2 witness. -/
def opsW2 : List GOp :=
  [GOp.insE ⟨0, 1, "ab", 1⟩, GOp.insE ⟨1, 2, "bc", 1⟩, GOp.remE 2 1]

/-- The graph `opsW2` reaches. -/
def gW2 : Digraph :=
  match grun opsW2 with
  | .ok g => g
  | .error _ => Digraph.empty

theorem c2_graph_symmetry_witness :
    (∀ u v, vlookup2 gW2.outgoing u v = vlookup2 gW2.outgoing v u) ∧
    (∀ e, vlookup2 ((Graph.insert_edge gW2 e).2).outgoing e.head e.tail = some e ∧
          vlookup2 ((Graph.insert_edge gW2 e).2).outgoing e.tail e.head = some e) ∧
    (∀ u v r g', Graph.remove_edge gW2 u v = .ok (r, g') →
          vlookup2 g'.outgoing u v = none ∧ vlookup2 g'.outgoing v u = none) :=
  c2_graph_symmetry opsW2 gW2 (by rfl) (by rfl)

/-! ## C9: the incoming map of an undirected Graph is redundant -/

/-- C9: every undirected `Graph` built from empty by `insert_vertex`,
`insert_edge`, `remove_edge` and `remove_vertex` calls keeps its incoming
map identical to its outgoing map, so `reverse()` leaves the graph — and
therefore every observable query — unchanged. -/
theorem c9_incoming_redundant (ops : List GOp) (g : Digraph)
    (h : grun ops = .ok g) :
    g.incoming = g.outgoing ∧
    Digraph.reverse g = g ∧
    (∀ u v, Digraph.edge (Digraph.reverse g) u v = Digraph.edge g u v) ∧
    (∀ w, Digraph.successors (Digraph.reverse g) w = Digraph.successors g w ∧
          Digraph.predecessors (Digraph.reverse g) w = Digraph.predecessors g w ∧
          Digraph.out_degree (Digraph.reverse g) w = Digraph.out_degree g w ∧
          Digraph.in_degree (Digraph.reverse g) w = Digraph.in_degree g w) ∧
    Digraph.edgesList (Digraph.reverse g) = Digraph.edgesList g := by
  have hinv := ginv_of_grun ops h
  have heq := hinv.1
  have hrev : Digraph.reverse g = g := by
    obtain ⟨o, i⟩ := g
    have hio : i = o := heq
    rw [Digraph.reverse, hio]
  exact ⟨heq, hrev, fun u v => by rw [hrev],
         fun w => ⟨by rw [hrev], by rw [hrev], by rw [hrev], by rw [hrev]⟩,
         by rw [hrev]⟩

/-- Concrete undirected run exercising all four operations, for the C9
witness. -/
def opsW9 : List GOp :=
  [GOp.insE ⟨0, 1, "ab", 1⟩, GOp.insV 5, GOp.insE ⟨1, 2, "bc", 1⟩,
   GOp.remE 0 1, GOp.remV 2]

/-- The graph `opsW9` reaches. -/
def gW9 : Digraph :=
  match grun opsW9 with
  | .ok g => g
  | .error _ => Digraph.empty

theorem c9_incoming_redundant_witness :
    gW9.incoming = gW9.outgoing ∧
    Digraph.reverse gW9 = gW9 ∧
    (∀ u v, Digraph.edge (Digraph.reverse gW9) u v = Digraph.edge gW9 u v) ∧
    (∀ w, Digraph.successors (Digraph.reverse gW9) w = Digraph.successors gW9 w ∧
          Digraph.predecessors (Digraph.reverse gW9) w = Digraph.predecessors gW9 w ∧
          Digraph.out_degree (Digraph.reverse gW9) w = Digraph.out_degree gW9 w ∧
          Digraph.in_degree (Digraph.reverse gW9) w = Digraph.in_degree gW9 w) ∧
    Digraph.edgesList (Digraph.reverse gW9) = Digraph.edgesList gW9 :=
  c9_incoming_redundant opsW9 gW9 (by rfl)

/-! ## Lemmas about `edges()` deduplication and `edge_count` -/

theorem pairEq_refl (e : Edge) : Edge.pairEq e e = true := by
  simp [Edge.pairEq]

theorem mem_pairInsert_of_mem {acc : List Edge} {x : Edge} (y : Edge)
    (h : x ∈ acc) : x ∈ Digraph.pairInsert acc y := by
  unfold Digraph.pairInsert
  split
  · exact h
  · exact List.mem_append_left _ h

theorem mem_pairFold_mono {x : Edge} :
    ∀ (l : List Edge) (acc : List Edge), x ∈ acc →
      x ∈ List.foldl Digraph.pairInsert acc l := by
  intro l
  induction l with
  | nil => exact fun acc h => h
  | cons y t ih =>
    intro acc h
    exact ih (Digraph.pairInsert acc y) (mem_pairInsert_of_mem y h)

theorem mem_pairFold_elim {x : Edge} :
    ∀ (l : List Edge) (acc : List Edge),
      x ∈ List.foldl Digraph.pairInsert acc l → x ∈ acc ∨ x ∈ l := by
  intro l
  induction l with
  | nil => exact fun acc h => Or.inl h
  | cons y t ih =>
    intro acc h
    rcases ih (Digraph.pairInsert acc y) h with h2 | h2
    · unfold Digraph.pairInsert at h2
      split at h2
      · exact Or.inl h2
      · rcases List.mem_append.mp h2 with h3 | h3
        · exact Or.inl h3
        · simp only [List.mem_singleton] at h3
          exact Or.inr (h3 ▸ List.mem_cons_self _ _)
    · exact Or.inr (List.mem_cons_of_mem _ h2)

theorem nodup_pairFold :
    ∀ (l : List Edge) (acc : List Edge), acc.Nodup →
      (List.foldl Digraph.pairInsert acc l).Nodup := by
  intro l
  induction l with
  | nil => exact fun acc h => h
  | cons y t ih =>
    intro acc h
    apply ih
    unfold Digraph.pairInsert
    split
    · exact h
    · rename_i hnone
      rw [List.nodup_append]
      refine ⟨h, List.nodup_singleton y, ?_⟩
      intro a ha hb
      simp only [List.mem_singleton] at hb
      subst hb
      exact hnone (List.any_eq_true.mpr ⟨a, ha, pairEq_refl a⟩)

theorem mem_pairFold_intro {e : Edge} :
    ∀ (l : List Edge) (acc : List Edge), e ∈ l →
      (∀ x ∈ l, Edge.pairEq x e = true → x = e) →
      (∀ x ∈ acc, Edge.pairEq x e = true → x = e) →
      e ∈ List.foldl Digraph.pairInsert acc l := by
  intro l
  induction l with
  | nil => exact fun acc h _ _ => absurd h (by simp)
  | cons y t ih =>
    intro acc hmem hl hacc
    have haccY : ∀ x ∈ Digraph.pairInsert acc y, Edge.pairEq x e = true → x = e := by
      intro x hx hpe
      unfold Digraph.pairInsert at hx
      split at hx
      · exact hacc x hx hpe
      · rcases List.mem_append.mp hx with h3 | h3
        · exact hacc x h3 hpe
        · simp only [List.mem_singleton] at h3
          subst h3
          exact hl x (List.mem_cons_self _ _) hpe
    rcases List.mem_cons.mp hmem with h2 | h2
    · subst h2
      refine mem_pairFold_mono t (Digraph.pairInsert acc e) ?_
      unfold Digraph.pairInsert
      split
      · rename_i hany
        obtain ⟨x, hx, hpe⟩ := List.any_eq_true.mp hany
        exact (hacc x hx hpe) ▸ hx
      · exact List.mem_append_right _ (List.mem_singleton.mpr rfl)
    · exact ih (Digraph.pairInsert acc y) h2
        (fun x hx => hl x (List.mem_cons_of_mem _ hx)) haccY

theorem nodup_edgesList (g : Digraph) : (Digraph.edgesList g).Nodup :=
  nodup_pairFold _ [] List.nodup_nil

theorem mem_edgesList_elim {g : Digraph} {x : Edge}
    (h : x ∈ Digraph.edgesList g) : x ∈ Digraph.allEdges g := by
  rcases mem_pairFold_elim _ [] h with h2 | h2
  · cases h2
  · exact h2

theorem mem_allValues_intro {m : VMap (VMap Edge)} {a : Nat} {M : VMap Edge}
    {x : Edge} (hrow : (a, M) ∈ m) (hx : x ∈ M.map (fun q => q.2)) :
    x ∈ allValues m := by
  unfold allValues
  rw [List.mem_flatten]
  exact ⟨M.map (fun q => q.2), List.mem_map_of_mem _ hrow, hx⟩

theorem mem_allValues_of_vlookup2 {m : VMap (VMap Edge)} {a b : Nat}
    {x : Edge} (h : vlookup2 m a b = some x) : x ∈ allValues m := by
  unfold vlookup2 at h
  cases hla : alookup m a with
  | none => rw [hla] at h; cases h
  | some M =>
    rw [hla] at h
    simp only [Option.some_bind] at h
    exact mem_allValues_intro (alookup_mem hla)
      (List.mem_map_of_mem _ (alookup_mem h))

theorem mem_allValues_elim {m : VMap (VMap Edge)} {x : Edge}
    (h : x ∈ allValues m) :
    ∃ p, p ∈ m ∧ x ∈ p.2.map (fun q => q.2) := by
  unfold allValues at h
  rw [List.mem_flatten] at h
  obtain ⟨s, hs, hx⟩ := h
  rw [List.mem_map] at hs
  obtain ⟨p, hp, hps⟩ := hs
  exact ⟨p, hp, hps ▸ hx⟩

theorem vlookup2_of_mem_allValues {m : VMap (VMap Edge)} {x : Edge}
    (hw : wfKeys m) (h : x ∈ allValues m) :
    ∃ a b, vlookup2 m a b = some x := by
  obtain ⟨p, hp, hx⟩ := mem_allValues_elim h
  rw [List.mem_map] at hx
  obtain ⟨q, hq, hqx⟩ := hx
  refine ⟨p.1, q.1, ?_⟩
  unfold vlookup2
  rw [alookup_of_mem_nodup hw.1 hp]
  simp only [Option.some_bind]
  rw [alookup_of_mem_nodup (hw.2 p hp) hq, hqx]

theorem mem_allValues_aset_elim {m : VMap (VMap Edge)} {u : Nat}
    {M : VMap Edge} {x : Edge} (h : x ∈ allValues (aset m u M)) :
    x ∈ M.map (fun q => q.2) ∨ x ∈ allValues m := by
  obtain ⟨p, hp, hx⟩ := mem_allValues_elim h
  rcases mem_aset_elim hp with h2 | h2
  · rw [h2] at hx
    exact Or.inl hx
  · exact Or.inr (mem_allValues_intro h2 hx)

theorem mem_allValues_aset_nodup_elim {m : VMap (VMap Edge)} {u : Nat}
    {M : VMap Edge} {x : Edge} (hnd : (akeys m).Nodup)
    (h : x ∈ allValues (aset m u M)) :
    x ∈ M.map (fun q => q.2) ∨
      ∃ p, p ∈ m ∧ p.1 ≠ u ∧ x ∈ p.2.map (fun q => q.2) := by
  obtain ⟨p, hp, hx⟩ := mem_allValues_elim h
  rcases mem_aset_nodup_elim hnd hp with h2 | h2
  · left
    rw [← h2.2]
    exact hx
  · exact Or.inr ⟨p, h2.2, h2.1, hx⟩

theorem values_aset_elim {M : VMap Edge} {k : Nat} {e x : Edge}
    (h : x ∈ (aset M k e).map (fun q => q.2)) :
    x = e ∨ x ∈ M.map (fun q => q.2) := by
  rw [List.mem_map] at h
  obtain ⟨q, hq, hqx⟩ := h
  rcases mem_aset_elim hq with h2 | h2
  · left
    rw [← hqx, h2]
  · exact Or.inr (hqx ▸ List.mem_map_of_mem _ h2)

theorem length_eq_length_akeys {α : Type} (l : VMap α) :
    l.length = (akeys l).length := (List.length_map _ _).symm

theorem length_aset_of_mem_keys {α : Type} {l : VMap α} {k : Nat} (v : α)
    (h : k ∈ akeys l) : (aset l k v).length = l.length := by
  rw [length_eq_length_akeys, akeys_aset_of_mem v h, ← length_eq_length_akeys]

theorem length_aset_of_not_mem_keys {α : Type} {l : VMap α} {k : Nat} (v : α)
    (h : k ∉ akeys l) : (aset l k v).length = l.length + 1 := by
  rw [length_eq_length_akeys, akeys_aset_of_not_mem v h, List.length_append,
      ← length_eq_length_akeys]
  rfl

theorem sum_lengths_aset {m : VMap (VMap Edge)} {u : Nat} {Mu : VMap Edge}
    (M : VMap Edge) (h : alookup m u = some Mu) :
    ((aset m u M).map (fun p => p.2.length)).sum + Mu.length =
      (m.map (fun p => p.2.length)).sum + M.length := by
  induction m with
  | nil => cases h
  | cons p t ih =>
    obtain ⟨k', v'⟩ := p
    by_cases h2 : k' = u
    · subst h2
      simp only [alookup, if_true] at h
      cases h
      simp [aset, List.map_cons]
      omega
    · simp only [alookup, h2, if_false] at h
      simp only [aset, h2, if_false, List.map_cons, List.sum_cons]
      have := ih h
      omega

theorem sum_lengths_aset_fresh {m : VMap (VMap Edge)} {u : Nat}
    (M : VMap Edge) (h : u ∉ akeys m) :
    ((aset m u M).map (fun p => p.2.length)).sum =
      (m.map (fun p => p.2.length)).sum + M.length := by
  induction m with
  | nil => simp [aset]
  | cons p t ih =>
    obtain ⟨k', v'⟩ := p
    rw [akeys_cons] at h
    simp only [List.mem_cons] at h
    push_neg at h
    simp only [aset, Ne.symm h.1, if_false, List.map_cons, List.sum_cons,
               ih h.2]
    omega

theorem sum_lengths_insert_vertex (g : Digraph) (w : Nat) :
    (((g.insert_vertex w).2).outgoing.map (fun p => p.2.length)).sum =
      (g.outgoing.map (fun p => p.2.length)).sum := by
  unfold Digraph.insert_vertex
  by_cases h : g.contains w = true
  · simp [h]
  · have h' : w ∉ akeys g.outgoing := contains_eq_false_elim h
    simp only [h, Bool.false_eq_true, if_false]
    show ((aset g.outgoing w []).map (fun p => p.2.length)).sum = _
    rw [sum_lengths_aset_fresh [] h']
    rfl

theorem sum_lengths_autoInsert (g : Digraph) (e : Edge) :
    ((Digraph.autoInsert g e).outgoing.map (fun p => p.2.length)).sum =
      (g.outgoing.map (fun p => p.2.length)).sum := by
  rw [autoInsert_eq, sum_lengths_insert_vertex, sum_lengths_insert_vertex]

theorem mem_allValues_insert_vertex {g : Digraph} {w : Nat} {x : Edge}
    (h : x ∈ allValues ((g.insert_vertex w).2).outgoing) :
    x ∈ allValues g.outgoing := by
  rw [Digraph.insert_vertex] at h
  by_cases hc : g.contains w = true
  · simpa [hc] using h
  · simp only [hc, Bool.false_eq_true, if_false] at h
    rcases mem_allValues_aset_elim h with h2 | h2
    · cases h2
    · exact h2

theorem mem_allValues_autoInsert {g : Digraph} {e : Edge} {x : Edge}
    (h : x ∈ allValues (Digraph.autoInsert g e).outgoing) :
    x ∈ allValues g.outgoing := by
  rw [autoInsert_eq] at h
  exact mem_allValues_insert_vertex (mem_allValues_insert_vertex h)

theorem autoInsert_of_contains {g : Digraph} {e : Edge}
    (h1 : g.contains e.head = true) (h2 : g.contains e.tail = true) :
    Digraph.autoInsert g e = g := by
  unfold Digraph.autoInsert
  simp [h1, h2]

/-! ## C7: last-write-wins overwrite of a parallel edge -/

/-- C7, as amended: the unrestricted claim is false (see
`c7_last_write_wins_counterexample`: a graph reached by re-inserting `e1`
after a `reverse()` holds `e1` at the mirrored slot as well, where it
survives the overwrite and still appears in `edges()`).  Amended claim:
if a consistent `Digraph` holds `e1` as its `(u, v)` entry and stores `e1`
at no other slot, inserting a second edge `e2` with the same ordered
endpoint pair replaces `e1`: `edge(u, v)` then returns `e2`, `e1` no
longer appears in `edges()`, and `vertex_count()`/`edge_count()` are
unchanged. -/
theorem c7_last_write_wins (g : Digraph) (u v : Nat) (e1 e2 : Edge)
    (hinv : DInv g)
    (h1 : vlookup2 g.outgoing u v = some e1)
    (honly : ∀ a b, vlookup2 g.outgoing a b = some e1 → a = u ∧ b = v)
    (hh : e2.head = u) (ht : e2.tail = v) (hne : e1 ≠ e2) :
    Digraph.edge (Digraph.insert_edge g e2).2 u v = .ok (some e2) ∧
    e1 ∉ Digraph.edgesList (Digraph.insert_edge g e2).2 ∧
    ((Digraph.insert_edge g e2).2).vertex_count = g.vertex_count ∧
    ((Digraph.insert_edge g e2).2).edge_count = g.edge_count := by
  subst hh
  subst ht
  have hmemu : e2.head ∈ akeys g.outgoing := (dinv_inner_mem hinv h1).1
  have hmemv : e2.tail ∈ akeys g.outgoing := (dinv_inner_mem hinv h1).2
  have hcu : g.contains e2.head = true := (Digraph.contains_iff _ _).mpr hmemu
  have hcv : g.contains e2.tail = true := (Digraph.contains_iff _ _).mpr hmemv
  have hauto : Digraph.autoInsert g e2 = g := autoInsert_of_contains hcu hcv
  have hout : ((Digraph.insert_edge g e2).2).outgoing =
      assign2 g.outgoing e2.head e2.tail e2 := by
    show assign2 (Digraph.autoInsert g e2).outgoing e2.head e2.tail e2 = _
    rw [hauto]
  obtain ⟨Mu, hMu⟩ : ∃ Mu, alookup g.outgoing e2.head = some Mu := by
    cases hl : alookup g.outgoing e2.head with
    | none => exact absurd hmemu ((alookup_eq_none_iff _ _).mp hl)
    | some M => exact ⟨M, rfl⟩
  have hMuv : alookup Mu e2.tail = some e1 := by
    unfold vlookup2 at h1
    rw [hMu] at h1
    simpa using h1
  have hvMu : e2.tail ∈ akeys Mu := mem_akeys_of_alookup hMuv
  have hassign : assign2 g.outgoing e2.head e2.tail e2 =
      aset g.outgoing e2.head (aset Mu e2.tail e2) := by
    unfold assign2
    rw [agetD_of_alookup hMu]
  have hnd : (akeys g.outgoing).Nodup := hinv.2.2.1.1.1
  have hndMu : (akeys Mu).Nodup :=
    hinv.2.2.1.1.2 (e2.head, Mu) (alookup_mem hMu)
  have hch : ((Digraph.insert_edge g e2).2).contains e2.head = true := by
    rw [Digraph.contains_iff, hout, mem_akeys_assign2]
    exact Or.inr rfl
  have hct : ((Digraph.insert_edge g e2).2).contains e2.tail = true := by
    rw [Digraph.contains_iff, hout, mem_akeys_assign2]
    exact Or.inl hmemv
  refine ⟨?_, ?_, ?_, ?_⟩
  · rw [Digraph.edge]
    simp only [hch, hct, not_true_eq_false, if_false]
    rw [hout, vlookup2_assign2_self]
  · intro hmem
    have hall := mem_edgesList_elim hmem
    rw [show Digraph.allEdges (Digraph.insert_edge g e2).2
          = allValues ((Digraph.insert_edge g e2).2).outgoing from rfl,
        hout, hassign] at hall
    rcases mem_allValues_aset_nodup_elim hnd hall with hA | ⟨p, hp, hpne, hpx⟩
    · rw [List.mem_map] at hA
      obtain ⟨q, hq, hq1⟩ := hA
      rcases mem_aset_nodup_elim hndMu hq with h2 | h2
      · exact hne (by rw [← hq1, h2.2])
      · have hlq : alookup Mu q.1 = some e1 := by
          have := alookup_of_mem_nodup hndMu h2.2
          rw [show q = (q.1, q.2) from rfl, hq1] at this
          exact this
        have hvl : vlookup2 g.outgoing e2.head q.1 = some e1 := by
          unfold vlookup2
          rw [hMu]
          simpa using hlq
        exact h2.1 (honly _ _ hvl).2
    · rw [List.mem_map] at hpx
      obtain ⟨q, hq, hq1⟩ := hpx
      have hlp : alookup g.outgoing p.1 = some p.2 := alookup_of_mem_nodup hnd hp
      have hlq : alookup p.2 q.1 = some e1 := by
        have := alookup_of_mem_nodup (hinv.2.2.1.1.2 p hp) hq
        rw [show q = (q.1, q.2) from rfl, hq1] at this
        exact this
      have hvl : vlookup2 g.outgoing p.1 q.1 = some e1 := by
        unfold vlookup2
        rw [hlp]
        simpa using hlq
      exact hpne (honly _ _ hvl).1
  · show ((Digraph.insert_edge g e2).2).outgoing.length = g.outgoing.length
    rw [hout, hassign]
    exact length_aset_of_mem_keys _ hmemu
  · show (((Digraph.insert_edge g e2).2).outgoing.map
        (fun p => p.2.length)).sum = (g.outgoing.map (fun p => p.2.length)).sum
    rw [hout, hassign]
    have hs := sum_lengths_aset (aset Mu e2.tail e2) hMu
    have hlen : (aset Mu e2.tail e2).length = Mu.length :=
      length_aset_of_mem_keys _ hvMu
    omega

/-- The operation sequence refuting C7 as stated: the second
`insert_edge(e1)`, issued after a `reverse()`, stores `e1` at both the
`(0, 1)` and the `(1, 0)` outgoing slots. -/
def opsCX7 : List DOp :=
  [DOp.insV 1, DOp.insV 0, DOp.insE ⟨0, 1, "x", 1⟩, DOp.rev,
   DOp.insE ⟨0, 1, "x", 1⟩]

/-- The reachable graph `opsCX7` produces. -/
def gCX7 : Digraph :=
  match drun opsCX7 with
  | .ok g => g
  | .error _ => Digraph.empty

/-- C7, counterexample to the claim as stated: `gCX7` is reachable by
public operations and holds `e1 = ⟨0, 1, "x", 1⟩` as its `(0, 1)` entry —
the claim's antecedent, with `e2 = ⟨0, 1, "y", 2⟩` sharing the ordered
endpoint pair — yet after `insert_edge(e2)` the object `e1` still appears
in `edges()`, because the mirrored `(1, 0)` slot also holds `e1` and the
set deduplication keeps it. -/
theorem c7_last_write_wins_counterexample :
    drun opsCX7 = .ok gCX7 ∧
    Digraph.edge gCX7 0 1 = .ok (some ⟨0, 1, "x", 1⟩) ∧
    (⟨0, 1, "y", 2⟩ : Edge).head = 0 ∧
    (⟨0, 1, "y", 2⟩ : Edge).tail = 1 ∧
    (⟨0, 1, "x", 1⟩ : Edge) ≠ (⟨0, 1, "y", 2⟩ : Edge) ∧
    (⟨0, 1, "x", 1⟩ : Edge) ∈
      Digraph.edgesList (Digraph.insert_edge gCX7 ⟨0, 1, "y", 2⟩).2 :=
  ⟨by rfl, by rfl, rfl, rfl, by decide, by decide⟩

/-- Lifts a per-entry uniqueness check (decidable on a concrete graph) to
the lookup-level uniqueness hypothesis of `c7_last_write_wins`. -/
theorem vlookup2_only_of_entries {m : VMap (VMap Edge)} {e : Edge} {u v : Nat}
    (h : ∀ p ∈ m, ∀ q ∈ p.2, q.2 = e → p.1 = u ∧ q.1 = v) :
    ∀ a b, vlookup2 m a b = some e → a = u ∧ b = v := by
  intro a b hab
  unfold vlookup2 at hab
  cases hla : alookup m a with
  | none => rw [hla] at hab; cases hab
  | some M =>
    rw [hla] at hab
    simp only [Option.some_bind] at hab
    have h1 := h (a, M) (alookup_mem hla) (b, e) (alookup_mem hab) rfl
    exact h1

/-- Concrete run for the C7 witness. -/
def opsW7 : List DOp := [DOp.insE ⟨0, 1, "x", 1⟩]

/-- The graph `opsW7` reaches: it holds `⟨0, 1, "x", 1⟩` as its only edge. -/
def gW7 : Digraph :=
  match drun opsW7 with
  | .ok g => g
  | .error _ => Digraph.empty

theorem c7_last_write_wins_witness :
    Digraph.edge (Digraph.insert_edge gW7 ⟨0, 1, "y", 2⟩).2 0 1
      = .ok (some ⟨0, 1, "y", 2⟩) ∧
    (⟨0, 1, "x", 1⟩ : Edge) ∉
      Digraph.edgesList (Digraph.insert_edge gW7 ⟨0, 1, "y", 2⟩).2 ∧
    ((Digraph.insert_edge gW7 ⟨0, 1, "y", 2⟩).2).vertex_count
      = gW7.vertex_count ∧
    ((Digraph.insert_edge gW7 ⟨0, 1, "y", 2⟩).2).edge_count
      = gW7.edge_count :=
  c7_last_write_wins gW7 0 1 ⟨0, 1, "x", 1⟩ ⟨0, 1, "y", 2⟩
    (dinv_of_drun opsW7 (by rfl)) (by rfl)
    (vlookup2_only_of_entries (by decide)) rfl rfl (by decide)

/-! ## C10: edge counting on the undirected Graph -/

/-- C10: on an undirected `Graph`, inserting one fresh edge between
distinct non-adjacent vertices raises `edge_count()` by 2 while `edges()`
gains the single shared edge object exactly once; a fresh self-loop raises
`edge_count()` by only 1 — so `edge_count()` is not the number of logical
undirected edges. -/
theorem c10_undirected_edge_count (g : Digraph) (u v : Nat) (e : Edge) :
    (u ≠ v → e.head = u → e.tail = v →
     vlookup2 g.outgoing u v = none → vlookup2 g.outgoing v u = none →
     (∀ x ∈ Digraph.allEdges g, Edge.pairEq x e = false) →
     ((Graph.insert_edge g e).2).edge_count = g.edge_count + 2 ∧
     e ∉ Digraph.edgesList g ∧
     e ∈ Digraph.edgesList (Graph.insert_edge g e).2 ∧
     (Digraph.edgesList (Graph.insert_edge g e).2).count e = 1) ∧
    (e.head = u → e.tail = u → vlookup2 g.outgoing u u = none →
     ((Graph.insert_edge g e).2).edge_count = g.edge_count + 1) := by
  constructor
  · intro huv hh ht hno1 hno2 hfresh
    subst hh
    subst ht
    have hout : ((Graph.insert_edge g e).2).outgoing =
        assign2 (assign2 (Digraph.autoInsert g e).outgoing e.head e.tail e)
          e.tail e.head e := rfl
    have hmemu : e.head ∈ akeys (Digraph.autoInsert g e).outgoing :=
      (Digraph.contains_iff _ _).mp (contains_autoInsert_head g e)
    have hmemv : e.tail ∈ akeys (Digraph.autoInsert g e).outgoing :=
      (Digraph.contains_iff _ _).mp (contains_autoInsert_tail g e)
    obtain ⟨Mu, hMu⟩ : ∃ Mu,
        alookup (Digraph.autoInsert g e).outgoing e.head = some Mu := by
      cases hl : alookup (Digraph.autoInsert g e).outgoing e.head with
      | none => exact absurd hmemu ((alookup_eq_none_iff _ _).mp hl)
      | some M => exact ⟨M, rfl⟩
    have hgmno1 : vlookup2 (Digraph.autoInsert g e).outgoing e.head e.tail
        = none := by
      rw [vlookup2_autoInsert_out]
      exact hno1
    have hgmno2 : vlookup2 (Digraph.autoInsert g e).outgoing e.tail e.head
        = none := by
      rw [vlookup2_autoInsert_out]
      exact hno2
    have hMut : alookup Mu e.tail = none := by
      unfold vlookup2 at hgmno1
      rw [hMu] at hgmno1
      simpa using hgmno1
    have htMu : e.tail ∉ akeys Mu := (alookup_eq_none_iff _ _).mp hMut
    have hassign1 : assign2 (Digraph.autoInsert g e).outgoing e.head e.tail e =
        aset (Digraph.autoInsert g e).outgoing e.head (aset Mu e.tail e) := by
      unfold assign2
      rw [agetD_of_alookup hMu]
    obtain ⟨Mv, hMv⟩ : ∃ Mv,
        alookup (Digraph.autoInsert g e).outgoing e.tail = some Mv := by
      cases hl : alookup (Digraph.autoInsert g e).outgoing e.tail with
      | none => exact absurd hmemv ((alookup_eq_none_iff _ _).mp hl)
      | some M => exact ⟨M, rfl⟩
    have hMvh : alookup Mv e.head = none := by
      unfold vlookup2 at hgmno2
      rw [hMv] at hgmno2
      simpa using hgmno2
    have hhMv : e.head ∉ akeys Mv := (alookup_eq_none_iff _ _).mp hMvh
    have ho1v : alookup (aset (Digraph.autoInsert g e).outgoing e.head
        (aset Mu e.tail e)) e.tail = some Mv := by
      rw [alookup_aset_ne _ _ _ _ huv]
      exact hMv
    have hassign2 : assign2 (aset (Digraph.autoInsert g e).outgoing e.head
          (aset Mu e.tail e)) e.tail e.head e =
        aset (aset (Digraph.autoInsert g e).outgoing e.head
          (aset Mu e.tail e)) e.tail (aset Mv e.head e) := by
      unfold assign2
      rw [agetD_of_alookup ho1v]
    have houtfull : ((Graph.insert_edge g e).2).outgoing =
        aset (aset (Digraph.autoInsert g e).outgoing e.head
          (aset Mu e.tail e)) e.tail (aset Mv e.head e) := by
      rw [hout, hassign1, hassign2]
    have hselfvu : vlookup2 ((Graph.insert_edge g e).2).outgoing
        e.tail e.head = some e := by
      rw [hout, vlookup2_assign2_self]
    have hfresh' : ∀ x ∈ allValues ((Graph.insert_edge g e).2).outgoing,
        Edge.pairEq x e = true → x = e := by
      intro x hx hpe
      rw [houtfull] at hx
      rcases mem_allValues_aset_elim hx with hA | hB
      · rcases values_aset_elim hA with h2 | h2
        · exact h2
        · have hxg : x ∈ allValues g.outgoing :=
            mem_allValues_autoInsert (mem_allValues_intro (alookup_mem hMv) h2)
          rw [hfresh x hxg] at hpe
          cases hpe
      · rcases mem_allValues_aset_elim hB with hC | hD
        · rcases values_aset_elim hC with h2 | h2
          · exact h2
          · have hxg : x ∈ allValues g.outgoing :=
              mem_allValues_autoInsert
                (mem_allValues_intro (alookup_mem hMu) h2)
            rw [hfresh x hxg] at hpe
            cases hpe
        · have hxg : x ∈ allValues g.outgoing := mem_allValues_autoInsert hD
          rw [hfresh x hxg] at hpe
          cases hpe
    have hmemE : e ∈ Digraph.edgesList (Graph.insert_edge g e).2 :=
      mem_pairFold_intro (Digraph.allEdges (Graph.insert_edge g e).2) []
        (mem_allValues_of_vlookup2 hselfvu) hfresh'
        (fun x hx => absurd hx (List.not_mem_nil x))
    have hsum2 := sum_lengths_aset (aset Mv e.head e) ho1v
    have hsum1 := sum_lengths_aset (aset Mu e.tail e) hMu
    have hlenv : (aset Mv e.head e).length = Mv.length + 1 :=
      length_aset_of_not_mem_keys _ hhMv
    have hlenu : (aset Mu e.tail e).length = Mu.length + 1 :=
      length_aset_of_not_mem_keys _ htMu
    have hgmsum := sum_lengths_autoInsert g e
    refine ⟨?_, ?_, hmemE, ?_⟩
    · show (((Graph.insert_edge g e).2).outgoing.map
          (fun p => p.2.length)).sum
        = (g.outgoing.map (fun p => p.2.length)).sum + 2
      rw [houtfull]
      omega
    · intro hm
      have hfe := hfresh e (mem_edgesList_elim hm)
      rw [pairEq_refl] at hfe
      cases hfe
    · exact List.count_eq_one_of_mem (nodup_edgesList _) hmemE
  · intro hh ht hno
    subst hh
    have hout : ((Graph.insert_edge g e).2).outgoing =
        assign2 (assign2 (Digraph.autoInsert g e).outgoing e.head e.tail e)
          e.tail e.head e := rfl
    rw [ht] at hout
    have hmemu : e.head ∈ akeys (Digraph.autoInsert g e).outgoing :=
      (Digraph.contains_iff _ _).mp (contains_autoInsert_head g e)
    obtain ⟨Mu, hMu⟩ : ∃ Mu,
        alookup (Digraph.autoInsert g e).outgoing e.head = some Mu := by
      cases hl : alookup (Digraph.autoInsert g e).outgoing e.head with
      | none => exact absurd hmemu ((alookup_eq_none_iff _ _).mp hl)
      | some M => exact ⟨M, rfl⟩
    have hgmno : vlookup2 (Digraph.autoInsert g e).outgoing e.head e.head
        = none := by
      rw [vlookup2_autoInsert_out]
      exact hno
    have hMuh : alookup Mu e.head = none := by
      unfold vlookup2 at hgmno
      rw [hMu] at hgmno
      simpa using hgmno
    have hhMu : e.head ∉ akeys Mu := (alookup_eq_none_iff _ _).mp hMuh
    have hassign1 : assign2 (Digraph.autoInsert g e).outgoing e.head e.head e =
        aset (Digraph.autoInsert g e).outgoing e.head (aset Mu e.head e) := by
      unfold assign2
      rw [agetD_of_alookup hMu]
    have ho1 : alookup (aset (Digraph.autoInsert g e).outgoing e.head
        (aset Mu e.head e)) e.head = some (aset Mu e.head e) :=
      alookup_aset_self _ _ _
    have hassign2 : assign2 (aset (Digraph.autoInsert g e).outgoing e.head
          (aset Mu e.head e)) e.head e.head e =
        aset (Digraph.autoInsert g e).outgoing e.head (aset Mu e.head e) := by
      unfold assign2
      rw [agetD_of_alookup ho1, aset_aset_same, aset_aset_same]
    have houtfull : ((Graph.insert_edge g e).2).outgoing =
        aset (Digraph.autoInsert g e).outgoing e.head (aset Mu e.head e) := by
      rw [hout, hassign1, hassign2]
    have hsum1 := sum_lengths_aset (aset Mu e.head e) hMu
    have hlenu : (aset Mu e.head e).length = Mu.length + 1 :=
      length_aset_of_not_mem_keys _ hhMu
    have hgmsum := sum_lengths_autoInsert g e
    show (((Graph.insert_edge g e).2).outgoing.map (fun p => p.2.length)).sum
      = (g.outgoing.map (fun p => p.2.length)).sum + 1
    rw [houtfull]
    omega

theorem c10_undirected_edge_count_witness :
    (((Graph.insert_edge Digraph.empty ⟨0, 1, "ab", 1⟩).2).edge_count
       = Digraph.empty.edge_count + 2 ∧
     (⟨0, 1, "ab", 1⟩ : Edge) ∉ Digraph.edgesList Digraph.empty ∧
     (⟨0, 1, "ab", 1⟩ : Edge) ∈
       Digraph.edgesList (Graph.insert_edge Digraph.empty ⟨0, 1, "ab", 1⟩).2 ∧
     (Digraph.edgesList
       (Graph.insert_edge Digraph.empty ⟨0, 1, "ab", 1⟩).2).count
         ⟨0, 1, "ab", 1⟩ = 1) ∧
    ((Graph.insert_edge Digraph.empty ⟨5, 5, "loop", 1⟩).2).edge_count
       = Digraph.empty.edge_count + 1 :=
  ⟨(c10_undirected_edge_count Digraph.empty 0 1 ⟨0, 1, "ab", 1⟩).1
     (by decide) rfl rfl (by rfl) (by rfl) (by decide),
   (c10_undirected_edge_count Digraph.empty 5 5 ⟨5, 5, "loop", 1⟩).2
     rfl rfl (by rfl)⟩

end Pygraph
